import Mathlib

/-!
Verification development for the zamuza interaction-net compiler and runtime.

The Rust sources are shallowly embedded:
* the AST surface (`src/ast.rs`) as plain inductives, dropping only the
  `pest::Span` position payloads (they feed diagnostics, not semantics);
* the semantic checker (`src/check.rs`);
* the backend IR builder and its peephole optimiser
  (`src/backend/builder.rs`, `src/backend/optimize.rs`);
* the runtime IR builder (`src/runtime/builder.rs`), the VM interpreter
  (`src/runtime/vm.rs`) and the stack discipline of the emitted C runtime
  (`src/runtime/target/c.rs`).

Rust `HashMap`/`HashSet` values are modelled as insertion-ordered
association lists: `insert` overwrites in place or appends, lookup finds the
first matching key.  This fixes one deterministic iteration order where the
Rust hash map leaves it unspecified; the theorems below only depend on
iteration order where the source's behaviour is itself order-independent or
where a claim merely asks for "some" witness entry.
-/

namespace Ast

/-- Variable name, polarised input (`#x`) or output (`@x`) (ast.rs `Name`). -/
inductive Name where
  | In (s : String)
  | Out (s : String)
deriving Repr, DecidableEq

/-- Underlying string of a name, sigil stripped (ast.rs `Name::as_name`). -/
def Name.as_name : Name → String
  | .In s => s
  | .Out s => s

/-- Display form of a name (ast.rs `impl Display for Name`). -/
def Name.toStr : Name → String
  | .In s => "#" ++ s
  | .Out s => "@" ++ s

/-- Term: a name or an agent applied to argument terms (ast.rs `Term`/`Agent`). -/
inductive Term where
  | name (n : Name)
  | agent (name : String) (body : List Term)
deriving Repr

/-- Display form of a term (ast.rs `impl Display for Term`/`Agent`). -/
def Term.toStr : Term → String
  | .name n => n.toStr
  | .agent a body =>
    match body with
    | [] => a
    | _ => a ++ "(" ++ String.intercalate ", " (toStrList body) ++ ")"
where
  toStrList : List Term → List String
  | [] => []
  | t :: ts => t.toStr :: toStrList ts

/-- Equation between two terms (ast.rs `Equation`). -/
structure Equation where
  left : Term
  right : Term
deriving Repr

/-- Display form of an equation (ast.rs `impl Display for Equation`). -/
def Equation.toStr (e : Equation) : String :=
  e.left.toStr ++ " -> " ++ e.right.toStr

/-- Rule head: agent symbol applied to names only (ast.rs `RuleTerm`). -/
structure RuleTerm where
  agent : String
  body : List Name
deriving Repr, DecidableEq

/-- Display form of a rule head (ast.rs `impl Display for RuleTerm`). -/
def RuleTerm.toStr (t : RuleTerm) : String :=
  match t.body with
  | [] => t.agent
  | _ => t.agent ++ "(" ++ String.intercalate ", " (t.body.map Name.toStr) ++ ")"

/-- The two heads of a rule (ast.rs `RuleTermPair`). -/
structure RuleTermPair where
  left : RuleTerm
  right : RuleTerm
deriving Repr, DecidableEq

/-- Display form of a head pair (ast.rs `impl Display for RuleTermPair`). -/
def RuleTermPair.toStr (p : RuleTermPair) : String :=
  p.left.toStr ++ " >> " ++ p.right.toStr

/-- Interaction rule: head pair plus body equations (ast.rs `Rule`). -/
structure Rule where
  term_pair : RuleTermPair
  equations : List Equation
deriving Repr

/-- Display form of a rule (ast.rs `impl Display for Rule`). -/
def Rule.toStr (r : Rule) : String :=
  r.term_pair.toStr ++ " => " ++
    (match r.equations with
     | [] => "_"
     | eqs => String.intercalate ", " (eqs.map Equation.toStr))

/-- Net definition: name, interfaces, equations (ast.rs `Net`). -/
structure Net where
  name : String
  interfaces : List Term
  equations : List Equation
deriving Repr

/-- Module: rules and nets, in source order (ast.rs `Module`, minus the
filename/source fields which only feed diagnostics). -/
structure Module where
  rules : List Rule
  nets : List Net
deriving Repr

end Ast

namespace Check

/-- Type-checking errors (check.rs `TypeError`), span payloads replaced by
the offending AST values themselves. -/
inductive TypeError where
  | NonLinearRule (name : Ast.Name)
  | VariableCountError (name : Ast.Name) (count : Int)
  | OverlappingRules (r1 r2 : Ast.RuleTermPair)
  | MultipleTimesAsInput (name : Ast.Name)
  | MultipleTimesAsOutput (name : Ast.Name)
  | MisdirectedInput (name : Ast.Name)
  | MisdirectedOutput (name : Ast.Name)
  | NoMainFunction
deriving Repr, DecidableEq

/-- First value stored under a key in an association list (HashMap `get`). -/
def lookupA {α : Type} (m : List (String × α)) (k : String) : Option α :=
  (m.find? (fun e => e.1 = k)).map (fun e => e.2)

/-- Overwrite-or-append insertion (HashMap `insert`). -/
def insertA {α : Type} (m : List (String × α)) (k : String) (v : α) :
    List (String × α) :=
  match m with
  | [] => [(k, v)]
  | e :: rest => if e.1 = k then (k, v) :: rest else e :: insertA rest k v

/-- Every variable occurs at most once among the two heads' arguments
(check.rs `check_rule_terms`). -/
def check_rule_terms (rule : Ast.Rule) : Except TypeError Unit :=
  go (rule.term_pair.left.body ++ rule.term_pair.right.body) []
where
  go : List Ast.Name → List String → Except TypeError Unit
  | [], _ => .ok ()
  | n :: rest, seen =>
    if n.as_name ∈ seen then .error (.NonLinearRule n)
    else go rest (n.as_name :: seen)

/-- One counting step of check.rs `count_names`: bump the count of a name and
remember its latest occurrence. -/
def bumpName (m : List (String × (Int × Ast.Name))) (n : Ast.Name) :
    List (String × (Int × Ast.Name)) :=
  match lookupA m n.as_name with
  | some (c, _) => insertA m n.as_name (c + 1, n)
  | none => insertA m n.as_name (1, n)

/-- Count all name occurrences in a term, nested ones included
(check.rs `count_names`). -/
def count_names : Ast.Term → List (String × (Int × Ast.Name)) →
    List (String × (Int × Ast.Name))
  | .name n, m => bumpName m n
  | .agent _ body, m => countList body m
where
  countList : List Ast.Term → List (String × (Int × Ast.Name)) →
      List (String × (Int × Ast.Name))
  | [], m => m
  | t :: ts, m => countList ts (count_names t m)

/-- Scan the finished count table for a name whose count differs from two
(the final loop of check.rs `check_rule_variables`/`check_net_variables`). -/
def scanCounts : List (String × (Int × Ast.Name)) → Except TypeError Unit
  | [] => .ok ()
  | (_, (count, name)) :: rest =>
    if count ≠ 2 then .error (.VariableCountError name count)
    else scanCounts rest

/-- Every variable of a rule occurs exactly twice over heads and body
(check.rs `check_rule_variables`). -/
def check_rule_variables (rule : Ast.Rule) : Except TypeError Unit :=
  let m := (rule.term_pair.left.body ++ rule.term_pair.right.body).foldl
    bumpName []
  let m := rule.equations.foldl
    (fun m e => count_names e.right (count_names e.left m)) m
  scanCounts m

/-- Every variable of a net occurs exactly twice over equations and
interfaces (check.rs `check_net_variables`). -/
def check_net_variables (net : Ast.Net) : Except TypeError Unit :=
  let m := net.equations.foldl
    (fun m e => count_names e.right (count_names e.left m)) []
  let m := net.interfaces.foldl (fun m t => count_names t m) m
  scanCounts m

/-- Pairwise-distinct rule keys, keyed by the ordered pair of head agent
symbols (check.rs `check_overlapping`). -/
def check_overlapping (program : Ast.Module) : Except TypeError Unit :=
  go program.rules []
where
  go : List Ast.Rule → List ((String × String) × Ast.Rule) →
      Except TypeError Unit
  | [], _ => .ok ()
  | rule :: rest, rule_sets =>
    let agents := (rule.term_pair.left.agent, rule.term_pair.right.agent)
    match rule_sets.find? (fun e => e.1 = agents) with
    | some (_, other) =>
      .error (.OverlappingRules rule.term_pair other.term_pair)
    | none => go rest ((agents, rule) :: rule_sets)

/-- Walk a term updating the input/output occurrence map
(check.rs `check_term_io_balance`); `true` records an input occurrence,
`false` an output occurrence. -/
def check_term_io_balance : Ast.Term → List (String × Bool) →
    Except TypeError (List (String × Bool))
  | .name n, input_map =>
    match lookupA input_map n.as_name with
    | some input =>
      match n with
      | .In _ => if input then .error (.MultipleTimesAsInput n) else .ok input_map
      | .Out _ => if !input then .error (.MultipleTimesAsOutput n) else .ok input_map
    | none =>
      match n with
      | .In _ => .ok (insertA input_map n.as_name true)
      | .Out _ => .ok (insertA input_map n.as_name false)
  | .agent _ body, input_map => goList body input_map
where
  goList : List Ast.Term → List (String × Bool) →
      Except TypeError (List (String × Bool))
  | [], m => .ok m
  | t :: ts, m => do goList ts (← check_term_io_balance t m)

/-- Walk all equations with a starting occurrence map
(check.rs `check_equations_io_balance`). -/
def check_equations_io_balance (net : List Ast.Equation)
    (input_map : List (String × Bool)) : Except TypeError Unit :=
  match net with
  | [] => .ok ()
  | e :: rest => do
    let m ← check_term_io_balance e.left input_map
    let m ← check_term_io_balance e.right m
    check_equations_io_balance rest m

/-- Net input/output balance: interfaces walked first, then equations
(check.rs `check_net_io_balance`). -/
def check_net_io_balance (net : Ast.Net) : Except TypeError Unit := do
  let m ← check_term_io_balance.goList net.interfaces []
  check_equations_io_balance net.equations m

/-- Seed one head-argument name with the opposite occurrence flag
(the loop body of check.rs `check_rule_io_balance`). -/
def seedHeadName (m : List (String × Bool)) (n : Ast.Name) :
    List (String × Bool) :=
  match n with
  | .In _ => insertA m n.as_name false
  | .Out _ => insertA m n.as_name true

/-- Rule input/output balance: head-argument names are seeded with the flag
opposite to their sigil, then the body equations are walked
(check.rs `check_rule_io_balance`). -/
def check_rule_io_balance (rule : Ast.Rule) : Except TypeError Unit :=
  let input_map := (rule.term_pair.left.body ++ rule.term_pair.right.body).foldl
    seedHeadName []
  check_equations_io_balance rule.equations input_map

/-- Equation direction: no bare output name on the left, no bare input name
on the right (check.rs `check_equation_var_io_dir`). -/
def check_equation_var_io_dir (equation : Ast.Equation) :
    Except TypeError Unit := do
  match equation.left with
  | .name n =>
    match n with
    | .Out _ => .error (.MisdirectedOutput n)
    | _ => pure ()
  | _ => pure ()
  match equation.right with
  | .name n =>
    match n with
    | .In _ => .error (.MisdirectedInput n)
    | _ => pure ()
  | _ => pure ()

/-- The module defines a net named `Main` (check.rs `check_main`). -/
def check_main (program : Ast.Module) : Except TypeError Unit :=
  if program.nets.any (fun net => net.name = "Main") then .ok ()
  else .error .NoMainFunction

/-- Check one rule, in the order of the rule loop of check.rs
`check_module`. -/
def checkOneRule (rule : Ast.Rule) : Except TypeError Unit := do
  check_rule_terms rule
  check_rule_variables rule
  check_rule_io_balance rule
  goEqs rule.equations
where
  goEqs : List Ast.Equation → Except TypeError Unit
  | [] => .ok ()
  | e :: rest => do
    check_equation_var_io_dir e
    goEqs rest

/-- Check one net, in the order of the net loop of check.rs `check_module`. -/
def checkOneNet (net : Ast.Net) : Except TypeError Unit := do
  check_net_variables net
  check_net_io_balance net
  goEqs net.equations
where
  goEqs : List Ast.Equation → Except TypeError Unit
  | [] => .ok ()
  | e :: rest => do
    check_equation_var_io_dir e
    goEqs rest

/-- Check a whole module (check.rs `check_module`). -/
def check_module (module : Ast.Module) : Except TypeError Unit := do
  goRules module.rules
  goNets module.nets
  check_overlapping module
  check_main module
where
  goRules : List Ast.Rule → Except TypeError Unit
  | [] => .ok ()
  | r :: rest => do
    checkOneRule r
    goRules rest
  goNets : List Ast.Net → Except TypeError Unit
  | [] => .ok ()
  | n :: rest => do
    checkOneNet n
    goNets rest

end Check

namespace Backend

/-- Dense agent identifier (backend/mod.rs `AgentId`, a usize newtype whose
derived `Ord` is the numeric order). -/
abbrev AgentId := Nat

/-- Virtual register (backend/mod.rs `Local`). -/
inductive Local where
  | Name (index : Nat)
  | Agent (index : Nat)
  | Slot (index : Nat)
deriving Repr, DecidableEq

/-- Rule initializer opcodes (backend/mod.rs `RuleInitializer`). -/
inductive RuleInitializer where
  | Name (index : Nat)
  | Agent (index : Nat) (id : AgentId)
  | SlotFromLeft (index : Nat) (slot : Nat)
  | SlotFromRight (index : Nat) (slot : Nat)
  | ReuseLeft (index : Nat)
  | ReuseRight (index : Nat)
deriving Repr, DecidableEq

/-- Rule instruction opcodes (backend/mod.rs `RuleInstruction`). -/
inductive RuleInstruction where
  | SetSlot (target : Local) (slot : Nat) (value : Local)
  | PushEquation (left : Local) (right : Local) (description : String)
  | FreeLeft
  | FreeRight
deriving Repr, DecidableEq

/-- Net initializer opcodes (backend/mod.rs `NetInitializer`). -/
inductive NetInitializer where
  | Name (index : Nat)
  | Agent (index : Nat) (id : AgentId)
deriving Repr, DecidableEq

/-- Net instruction opcodes (backend/mod.rs `NetInstruction`). -/
inductive NetInstruction where
  | SetSlot (target : Local) (slot : Nat) (value : Local)
  | PushEquation (left : Local) (right : Local) (description : String)
deriving Repr, DecidableEq

/-- Agent metadata (backend/mod.rs `AgentMeta`). -/
structure AgentMeta where
  name : String
  arity : Nat
deriving Repr, DecidableEq

/-- Compiled rule (backend/mod.rs `Rule`). -/
structure Rule where
  index : Nat
  description : String
  initializers : List RuleInitializer
  instructions : List RuleInstruction
deriving Repr, DecidableEq

/-- Compiled net constructor (backend/mod.rs `Function`). -/
structure Function where
  index : Nat
  initializers : List NetInitializer
  instructions : List NetInstruction
  outputs : List Local
deriving Repr, DecidableEq

/-- Net metadata (backend/mod.rs `FunctionMeta`). -/
structure FunctionMeta where
  name : String
  output_count : Nat
deriving Repr, DecidableEq

/-- Whole compiled program (backend/mod.rs `Program`). -/
structure Program where
  agents : List AgentMeta
  rules : List Rule
  rule_map : List (AgentId × AgentId × Nat)
  functions : List Function
  function_meta : List FunctionMeta
  entry_point : Nat
deriving Repr

/-- Builder failures: the only fallible step of the backend builder is the
agent-arity conflict of `GlobalBuilder::add_or_get_agent` (an `anyhow`
message in the source) plus the duplicate/missing entry point of
`FunctionsBuilder`. -/
inductive BuildError where
  | AgentArityConflict (name : String) (has given : Nat)
  | EntryPointExists
  | EntryPointNotFound
deriving Repr, DecidableEq

/-- Agent interner state (backend/builder.rs `GlobalBuilder`), pre-seeded
with the reserved indirection agent. -/
def GlobalBuilder.default : List AgentMeta := [⟨"$", 1⟩]

/-- Intern an agent symbol with its arity
(backend/builder.rs `GlobalBuilder::add_or_get_agent`). -/
def add_or_get_agent (agents : List AgentMeta) (name : String) (arity : Nat) :
    Except BuildError (AgentId × List AgentMeta) :=
  match (agents.enum.find? (fun e => e.2.name = name)).map
      (fun e => (e.1, e.2.arity)) with
  | some (id, a) =>
    if a = arity then .ok (id, agents)
    else .error (.AgentArityConflict name a arity)
  | none => .ok (agents.length, agents ++ [⟨name, arity⟩])

/-- Which rule argument a head name imports from
(backend/builder.rs `ArgSlot`). -/
inductive ArgSlot where
  | Left (slot : Nat)
  | Right (slot : Nat)
deriving Repr, DecidableEq

/-- Per-rule lowering state (backend/builder.rs `RuleBuilder`). -/
structure RuleBuilder where
  arguments : List (String × ArgSlot)
  names : List String
  terms : List AgentId
  instructions : List RuleInstruction
deriving Repr

/-- Empty rule-lowering state (`RuleBuilder::default`). -/
def RuleBuilder.empty : RuleBuilder := ⟨[], [], [], []⟩

/-- Record a head-argument name (backend/builder.rs `RuleBuilder::slot`). -/
def RuleBuilder.slot : RuleBuilder → String → ArgSlot → RuleBuilder
  | ⟨arguments, names, terms, instructions⟩, name, s =>
    ⟨arguments ++ [(name, s)], names, terms, instructions⟩

/-- Resolve a name to a register: slot import first, then interned name
(backend/builder.rs `RuleBuilder::add_or_get_name`). -/
def RuleBuilder.add_or_get_name : RuleBuilder → String → Local × RuleBuilder
  | ⟨arguments, names, terms, instructions⟩, name =>
    match (arguments.enum.find? (fun e => e.2.1 = name)).map (fun e => e.1) with
    | some id => (.Slot id, ⟨arguments, names, terms, instructions⟩)
    | none =>
      match (names.enum.find? (fun e => e.2 = name)).map (fun e => e.1) with
      | some id => (.Name id, ⟨arguments, names, terms, instructions⟩)
      | none =>
        (.Name names.length, ⟨arguments, names ++ [name], terms, instructions⟩)

/-- Allocate a fresh agent register (backend/builder.rs
`RuleBuilder::add_term`). -/
def RuleBuilder.add_term : RuleBuilder → AgentId → Local × RuleBuilder
  | ⟨arguments, names, terms, instructions⟩, agent_id =>
    (.Agent terms.length, ⟨arguments, names, terms ++ [agent_id], instructions⟩)

/-- Lower a term inside a rule body (backend/builder.rs
`RuleBuilder::term`): a name resolves to its register, an agent allocates a
fresh register and emits one `SetSlot` per argument. -/
def RuleBuilder.term (global : List AgentMeta) (b : RuleBuilder) :
    Ast.Term → Except BuildError (Local × List AgentMeta × RuleBuilder)
  | .name n => .ok (let (l, b) := b.add_or_get_name n.as_name; (l, global, b))
  | .agent name body => do
    let (agent_id, global) ← add_or_get_agent global name body.length
    let (term_name, b) := b.add_term agent_id
    let (global, b) ← goArgs term_name global b body 0
    .ok (term_name, global, b)
where
  goArgs (term_name : Local) : List AgentMeta → RuleBuilder → List Ast.Term →
      Nat → Except BuildError (List AgentMeta × RuleBuilder)
  | global, b, [], _ => .ok (global, b)
  | global, b, t :: ts, i => do
    let (sub_name, global, b) ← RuleBuilder.term global b t
    match b with
    | ⟨arguments, names, terms, instructions⟩ =>
      goArgs term_name global
        ⟨arguments, names, terms,
          instructions ++ [.SetSlot term_name (i + 1) sub_name]⟩ ts (i + 1)

/-- Lower a rule-body equation (backend/builder.rs `RuleBuilder::equation`). -/
def RuleBuilder.equation (global : List AgentMeta) (b : RuleBuilder)
    (e : Ast.Equation) : Except BuildError (List AgentMeta × RuleBuilder) := do
  let description := e.toStr
  let (left_name, global, b) ← RuleBuilder.term global b e.left
  let (right_name, global, b) ← RuleBuilder.term global b e.right
  match b with
  | ⟨arguments, names, terms, instructions⟩ =>
    .ok (global, ⟨arguments, names, terms,
      instructions ++ [.PushEquation left_name right_name description]⟩)

/-- Finish a rule body: grouped initializers, instructions terminated by the
two frees (backend/builder.rs `RuleBuilder::build`). -/
def RuleBuilder.build : RuleBuilder →
    List RuleInitializer × List RuleInstruction
  | ⟨arguments, names, terms, instructions⟩ =>
    let arguments := arguments.enum.map (fun e =>
      match e.2.2 with
      | .Left slot => RuleInitializer.SlotFromLeft e.1 slot
      | .Right slot => RuleInitializer.SlotFromRight e.1 slot)
    let names := names.enum.map (fun e => RuleInitializer.Name e.1)
    let terms := terms.enum.map (fun e => RuleInitializer.Agent e.1 e.2)
    (arguments ++ names ++ terms,
      instructions ++ [.FreeLeft, .FreeRight])

/-- Accumulated rules and dispatch keys (backend/builder.rs `RulesBuilder`). -/
structure RulesBuilder where
  rules : List Rule
  rule_map : List (AgentId × AgentId × Nat)
deriving Repr

/-- Lower one rule: intern both heads, canonicalise endpoint order, seed the
slot imports, lower the body, append to `rules` and `rule_map`
(backend/builder.rs `RulesBuilder::rule`). -/
def RulesBuilder.rule (st : RulesBuilder) (global : List AgentMeta)
    (rule : Ast.Rule) : Except BuildError (List AgentMeta × RulesBuilder) := do
  let description := rule.toStr
  let term1 := rule.term_pair.left
  let term2 := rule.term_pair.right
  let body := RuleBuilder.empty
  let (a1, global) ← add_or_get_agent global term1.agent term1.body.length
  let (a2, global) ← add_or_get_agent global term2.agent term2.body.length
  let (a_left, a_right) := if a1 ≤ a2 then (a1, a2) else (a2, a1)
  let (term_left, term_right) := if a1 ≤ a2 then (term1, term2) else (term2, term1)
  let body := goSlots body term_left.body .Left 0
  let body := goSlots body term_right.body .Right 0
  let (global, body) ← goEqs global body rule.equations
  let (initializers, instructions) := body.build
  match st with
  | ⟨rules, rule_map⟩ =>
    let index := rules.length
    .ok (global,
      ⟨rules ++ [⟨index, description, initializers, instructions⟩],
        rule_map ++ [(a_left, a_right, index)]⟩)
where
  goSlots (b : RuleBuilder) : List Ast.Name → (Nat → ArgSlot) → Nat →
      RuleBuilder
  | [], _, _ => b
  | n :: ns, side, i => goSlots (b.slot n.as_name (side (i + 1))) ns side (i + 1)
  goEqs : List AgentMeta → RuleBuilder → List Ast.Equation →
      Except BuildError (List AgentMeta × RuleBuilder)
  | global, b, [] => .ok (global, b)
  | global, b, e :: es => do
    let (global, b) ← RuleBuilder.equation global b e
    goEqs global b es

/-- Fold `RulesBuilder::rule` over all rules of a module (the rules loop of
backend/builder.rs `RuntimeBuilder::module`). -/
def buildRules (global : List AgentMeta) (st : RulesBuilder) :
    List Ast.Rule → Except BuildError (List AgentMeta × RulesBuilder)
  | [] => .ok (global, st)
  | r :: rs => do
    let (global, st) ← st.rule global r
    buildRules global st rs

/-- Position and register index of the first `Agent` initializer for a given
agent id (the `find_map` of backend/optimize.rs `optimize_new_free`). -/
def findAgentInit (id : AgentId) : List RuleInitializer → Option (Nat × Nat)
  | [] => none
  | x :: rest =>
    match x with
    | .Agent index i =>
      if i = id then some (0, index)
      else (findAgentInit id rest).map (fun e => (e.1 + 1, e.2))
    | _ => (findAgentInit id rest).map (fun e => (e.1 + 1, e.2))

/-- Position of the first `FreeLeft` instruction. -/
def findFreeLeft : List RuleInstruction → Option Nat
  | [] => none
  | .FreeLeft :: _ => some 0
  | _ :: rest => (findFreeLeft rest).map (· + 1)

/-- Position of the first `FreeRight` instruction. -/
def findFreeRight : List RuleInstruction → Option Nat
  | [] => none
  | .FreeRight :: _ => some 0
  | _ :: rest => (findFreeRight rest).map (· + 1)

/-- Left half of backend/optimize.rs `optimize_new_free`: fuse the first
fresh allocation of the left endpoint agent with `FreeLeft` into
`ReuseLeft`. -/
def optimizeLeftPass (left_id : AgentId) (rule : Rule) : Rule :=
  match findAgentInit left_id rule.initializers with
  | some (left_reuse_index, index) =>
    match findFreeLeft rule.instructions with
    | some left_free_index =>
      { rule with
        initializers :=
          rule.initializers.eraseIdx left_reuse_index ++
            [.ReuseLeft index],
        instructions := rule.instructions.eraseIdx left_free_index }
    | none => rule
  | none => rule

/-- Right half of backend/optimize.rs `optimize_new_free`. -/
def optimizeRightPass (right_id : AgentId) (rule : Rule) : Rule :=
  match findAgentInit right_id rule.initializers with
  | some (right_reuse_index, index) =>
    match findFreeRight rule.instructions with
    | some right_free_index =>
      { rule with
        initializers :=
          rule.initializers.eraseIdx right_reuse_index ++
            [.ReuseRight index],
        instructions := rule.instructions.eraseIdx right_free_index }
    | none => rule
  | none => rule

/-- Single peephole pass over one rule (backend/optimize.rs
`optimize_new_free`); `none` models the Rust panic on an out-of-range
`rule.index`. -/
def optimize_new_free (rule : Rule)
    (rule_map : List (AgentId × AgentId × Nat)) : Option Rule :=
  match rule_map.get? rule.index with
  | none => none
  | some (left_id, right_id, _) =>
    some (optimizeRightPass right_id (optimizeLeftPass left_id rule))

/-- Optimise a list of rules in order (the loop of backend/optimize.rs
`optimize`). -/
def optimizeRules (rule_map : List (AgentId × AgentId × Nat)) :
    List Rule → Option (List Rule)
  | [] => some []
  | r :: rs => do
    let r' ← optimize_new_free r rule_map
    let rs' ← optimizeRules rule_map rs
    some (r' :: rs')

/-- Optimise every rule of a program in place (backend/optimize.rs
`optimize`). -/
def optimize (program : Program) : Option Program :=
  (optimizeRules program.rule_map program.rules).map
    (fun rules => { program with rules := rules })

end Backend

namespace Rt

/-- Runtime-IR initializer opcodes (runtime/mod.rs `Initializer`; unlike the
backend IR there are no reuse initializers). -/
inductive Initializer where
  | Name (index : Nat)
  | Agent (index : Nat) (id : Backend.AgentId)
  | SlotFromLeft (index : Nat) (slot : Nat)
  | SlotFromRight (index : Nat) (slot : Nat)
deriving Repr, DecidableEq

/-- Display form of an initializer (runtime/mod.rs `impl Display`). -/
def Initializer.toStr : Initializer → String
  | .Name index => "let x" ++ toString index ++ " = new_name();"
  | .Agent index id => "let a" ++ toString index ++ " = new_agent(" ++ toString id ++ ");"
  | .SlotFromLeft index slot =>
    "let s" ++ toString index ++ " = left[" ++ toString slot ++ "];"
  | .SlotFromRight index slot =>
    "let s" ++ toString index ++ " = right[" ++ toString slot ++ "];"

/-- Display form of a register (runtime/mod.rs `impl Display for Local`). -/
def localToStr : Backend.Local → String
  | .Name index => "x" ++ toString index
  | .Agent index => "a" ++ toString index
  | .Slot index => "s" ++ toString index

/-- Runtime-IR instruction opcodes (runtime/mod.rs `Instruction`; no frees). -/
inductive Instruction where
  | SetSlot (target : Backend.Local) (slot : Nat) (value : Backend.Local)
  | PushEquation (left : Backend.Local) (right : Backend.Local)
      (description : String)
deriving Repr, DecidableEq

/-- Display form of an instruction (runtime/mod.rs `impl Display`). -/
def Instruction.toStr : Instruction → String
  | .SetSlot target slot value =>
    localToStr target ++ "[" ++ toString slot ++ "] = " ++ localToStr value ++ ";"
  | .PushEquation left right description =>
    "push_equation(" ++ localToStr left ++ ", " ++ localToStr right ++ "); // "
      ++ description

/-- Compiled rule (runtime/mod.rs `Rule`). -/
structure Rule where
  index : Nat
  description : String
  initializers : List Initializer
  instructions : List Instruction
deriving Repr, DecidableEq

/-- Compiled net constructor (runtime/mod.rs `Function`). -/
structure Function where
  name : String
  initializers : List Initializer
  instructions : List Instruction
  outputs : List Backend.Local
deriving Repr, DecidableEq

/-- Whole runtime program (runtime/mod.rs `Program`). -/
structure Program where
  agents : List Backend.AgentMeta
  rules : List Rule
  rule_map : List (Backend.AgentId × Backend.AgentId × Nat)
  functions : List Function
deriving Repr

/-- Per-body lowering state (runtime/builder.rs `BodyBuilder`); shared by
rule and net lowering. -/
structure BodyBuilder where
  arguments : List (String × Backend.ArgSlot)
  names : List String
  terms : List Backend.AgentId
  instructions : List Instruction
deriving Repr

/-- Empty body-lowering state (`BodyBuilder::default`). -/
def BodyBuilder.empty : BodyBuilder := ⟨[], [], [], []⟩

/-- Record a head-argument name (runtime/builder.rs `BodyBuilder::slot`). -/
def BodyBuilder.slot : BodyBuilder → String → Backend.ArgSlot → BodyBuilder
  | ⟨arguments, names, terms, instructions⟩, name, s =>
    ⟨arguments ++ [(name, s)], names, terms, instructions⟩

/-- Resolve a name to a register (runtime/builder.rs
`BodyBuilder::add_or_get_name`). -/
def BodyBuilder.add_or_get_name : BodyBuilder → String →
    Backend.Local × BodyBuilder
  | ⟨arguments, names, terms, instructions⟩, name =>
    match (arguments.enum.find? (fun e => e.2.1 = name)).map (fun e => e.1) with
    | some id => (.Slot id, ⟨arguments, names, terms, instructions⟩)
    | none =>
      match (names.enum.find? (fun e => e.2 = name)).map (fun e => e.1) with
      | some id => (.Name id, ⟨arguments, names, terms, instructions⟩)
      | none =>
        (.Name names.length, ⟨arguments, names ++ [name], terms, instructions⟩)

/-- Allocate a fresh agent register (runtime/builder.rs
`BodyBuilder::add_term`). -/
def BodyBuilder.add_term : BodyBuilder → Backend.AgentId →
    Backend.Local × BodyBuilder
  | ⟨arguments, names, terms, instructions⟩, agent_id =>
    (.Agent terms.length, ⟨arguments, names, terms ++ [agent_id], instructions⟩)

/-- Lower a term (runtime/builder.rs `BodyBuilder::term`). -/
def BodyBuilder.term (global : List Backend.AgentMeta) (b : BodyBuilder) :
    Ast.Term →
      Except Backend.BuildError (Backend.Local × List Backend.AgentMeta × BodyBuilder)
  | .name n => .ok (let (l, b) := b.add_or_get_name n.as_name; (l, global, b))
  | .agent name body => do
    let (agent_id, global) ← Backend.add_or_get_agent global name body.length
    let (term_name, b) := b.add_term agent_id
    let (global, b) ← goArgs term_name global b body 0
    .ok (term_name, global, b)
where
  goArgs (term_name : Backend.Local) : List Backend.AgentMeta → BodyBuilder →
      List Ast.Term → Nat →
      Except Backend.BuildError (List Backend.AgentMeta × BodyBuilder)
  | global, b, [], _ => .ok (global, b)
  | global, b, t :: ts, i => do
    let (sub_name, global, b) ← BodyBuilder.term global b t
    match b with
    | ⟨arguments, names, terms, instructions⟩ =>
      goArgs term_name global
        ⟨arguments, names, terms,
          instructions ++ [.SetSlot term_name (i + 1) sub_name]⟩ ts (i + 1)

/-- Lower an equation (runtime/builder.rs `BodyBuilder::equation`). -/
def BodyBuilder.equation (global : List Backend.AgentMeta) (b : BodyBuilder)
    (e : Ast.Equation) :
    Except Backend.BuildError (List Backend.AgentMeta × BodyBuilder) := do
  let description := e.toStr
  let (left_name, global, b) ← BodyBuilder.term global b e.left
  let (right_name, global, b) ← BodyBuilder.term global b e.right
  match b with
  | ⟨arguments, names, terms, instructions⟩ =>
    .ok (global, ⟨arguments, names, terms,
      instructions ++ [.PushEquation left_name right_name description]⟩)

/-- Finish a body: grouped initializers, instructions unchanged
(runtime/builder.rs `BodyBuilder::build`, which appends no frees). -/
def BodyBuilder.build : BodyBuilder → List Initializer × List Instruction
  | ⟨arguments, names, terms, instructions⟩ =>
    let arguments := arguments.enum.map (fun e =>
      match e.2.2 with
      | .Left slot => Initializer.SlotFromLeft e.1 slot
      | .Right slot => Initializer.SlotFromRight e.1 slot)
    let names := names.enum.map (fun e => Initializer.Name e.1)
    let terms := terms.enum.map (fun e => Initializer.Agent e.1 e.2)
    (arguments ++ names ++ terms, instructions)

/-- Accumulated rules and dispatch keys (runtime/builder.rs `RulesBuilder`). -/
structure RulesBuilder where
  rules : List Rule
  rule_map : List (Backend.AgentId × Backend.AgentId × Nat)
deriving Repr

/-- Lower one rule (runtime/builder.rs `RulesBuilder::rule`), with the same
endpoint canonicalisation as the backend builder. -/
def RulesBuilder.rule (st : RulesBuilder) (global : List Backend.AgentMeta)
    (rule : Ast.Rule) :
    Except Backend.BuildError (List Backend.AgentMeta × RulesBuilder) := do
  let description := rule.toStr
  let term1 := rule.term_pair.left
  let term2 := rule.term_pair.right
  let body := BodyBuilder.empty
  let (a1, global) ← Backend.add_or_get_agent global term1.agent term1.body.length
  let (a2, global) ← Backend.add_or_get_agent global term2.agent term2.body.length
  let (a_left, a_right) := if a1 ≤ a2 then (a1, a2) else (a2, a1)
  let (term_left, term_right) := if a1 ≤ a2 then (term1, term2) else (term2, term1)
  let body := goSlots body term_left.body .Left 0
  let body := goSlots body term_right.body .Right 0
  let (global, body) ← goEqs global body rule.equations
  let (initializers, instructions) := body.build
  match st with
  | ⟨rules, rule_map⟩ =>
    let index := rules.length
    .ok (global,
      ⟨rules ++ [⟨index, description, initializers, instructions⟩],
        rule_map ++ [(a_left, a_right, index)]⟩)
where
  goSlots (b : BodyBuilder) : List Ast.Name → (Nat → Backend.ArgSlot) → Nat →
      BodyBuilder
  | [], _, _ => b
  | n :: ns, side, i => goSlots (b.slot n.as_name (side (i + 1))) ns side (i + 1)
  goEqs : List Backend.AgentMeta → BodyBuilder → List Ast.Equation →
      Except Backend.BuildError (List Backend.AgentMeta × BodyBuilder)
  | global, b, [] => .ok (global, b)
  | global, b, e :: es => do
    let (global, b) ← BodyBuilder.equation global b e
    goEqs global b es

/-- Lower one net to a function (runtime/builder.rs
`FunctionsBuilder::function`): equations first, then interfaces appended to
`outputs` in source order. -/
def buildFunction (global : List Backend.AgentMeta) (net : Ast.Net) :
    Except Backend.BuildError (List Backend.AgentMeta × Function) := do
  let body := BodyBuilder.empty
  let (global, body, outputs) ← goIfaces (← goEqs global body net.equations)
    net.interfaces
  let (initializers, instructions) := body.build
  .ok (global, ⟨net.name, initializers, instructions, outputs⟩)
where
  goEqs : List Backend.AgentMeta → BodyBuilder → List Ast.Equation →
      Except Backend.BuildError (List Backend.AgentMeta × BodyBuilder)
  | global, b, [] => .ok (global, b)
  | global, b, e :: es => do
    let (global, b) ← BodyBuilder.equation global b e
    goEqs global b es
  goIfaces :
      List Backend.AgentMeta × BodyBuilder → List Ast.Term →
      Except Backend.BuildError
        (List Backend.AgentMeta × BodyBuilder × List Backend.Local)
  | (global, b), [] => .ok (global, b, [])
  | (global, b), t :: ts => do
    let (l, global, b) ← BodyBuilder.term global b t
    let (global, b, outputs) ← goIfaces (global, b) ts
    .ok (global, b, l :: outputs)

/-- Build the runtime program of a module (runtime/builder.rs
`RuntimeBuilder::module` + `build`): fold all rules, then all nets, over the
shared agent interner seeded with the `$` agent. -/
def build_runtime (module : Ast.Module) : Except Backend.BuildError Program := do
  let global := Backend.GlobalBuilder.default
  let (global, st) ← goRules global ⟨[], []⟩ module.rules
  let (global, functions) ← goNets global module.nets
  .ok ⟨global, st.rules, st.rule_map, functions⟩
where
  goRules (global : List Backend.AgentMeta) (st : RulesBuilder) :
      List Ast.Rule →
      Except Backend.BuildError (List Backend.AgentMeta × RulesBuilder)
  | [] => .ok (global, st)
  | r :: rs => do
    let (global, st) ← st.rule global r
    goRules global st rs
  goNets (global : List Backend.AgentMeta) : List Ast.Net →
      Except Backend.BuildError (List Backend.AgentMeta × List Function)
  | [] => .ok (global, [])
  | n :: ns => do
    let (global, f) ← buildFunction global n
    let (global, fs) ← goNets global ns
    .ok (global, f :: fs)

/-- Entry-point code of a program, as consumed by vm.rs (`ir::Main`). -/
structure Main where
  initializers : List Initializer
  instructions : List Instruction
  outputs : List Backend.Local
deriving Repr

/-- Modelled from the spec: the module defining vm.rs's `ir::Main` is not in
the source tree (vm.rs consumes `ir::Program { main, .. }` whose producer is
absent); per the spec, "the distinguished net `Main` is the program entry
point", so the entry code is the function named `Main`. -/
def mainOf (p : Program) : Option Main :=
  (p.functions.find? (fun f => f.name = "Main")).map
    (fun f => ⟨f.initializers, f.instructions, f.outputs⟩)

end Rt

namespace Vm

mutual
/-- Heap value (vm.rs `Value`): a movable term slot (`Term(Option<Term>)`)
or a handle to a shared reference cell (`Ref(Rc<RefCell<Ref>>)`, modelled as
an index into `Runtime.heap`). -/
inductive Value where
  | term (t : Option TermT)
  | ref (addr : Nat)
/-- Agent cell (vm.rs `Term`): agent id and argument slots. -/
inductive TermT where
  | mk (id : Backend.AgentId) (slots : List Value)
end

/-- Agent id of a cell (field access on vm.rs `Term`). -/
def TermT.id : TermT → Backend.AgentId
  | .mk i _ => i

/-- Slot list of a cell (field access on vm.rs `Term`). -/
def TermT.slots : TermT → List Value
  | .mk _ s => s

/-- Non-null value (vm.rs `NonNullValue`): what lives on the equation
stack. -/
inductive NNValue where
  | term (t : TermT)
  | ref (addr : Nat)

/-- Widening conversion (vm.rs `impl From<NonNullValue> for Value`). -/
def NNValue.toValue : NNValue → Value
  | .term t => .term (some t)
  | .ref a => .ref a

/-- Fallible narrowing (vm.rs `impl TryFrom<Value> for NonNullValue`):
`Term(None)` has been moved out and cannot go on the stack. -/
def Value.tryIntoNN : Value → Option NNValue
  | .term (some t) => some (.term t)
  | .term none => none
  | .ref a => some (.ref a)

/-- Move a value out of a slot (vm.rs `Value::take`): terms are moved,
leaving `Term(None)`; reference handles are cloned. -/
def Value.take : Value → Value × Value
  | .term t => (.term t, .term none)
  | .ref a => (.ref a, .ref a)

/-- Contents of a shared reference cell (vm.rs `Ref`): an unbound name uid,
or a bound (indirection) value. -/
inductive RefC where
  | name (uid : Nat)
  | value (v : NNValue)

/-- Interpreter runtime state (vm.rs `Runtime`), extended with the `heap`
that realises the `Rc<RefCell<Ref>>` cells at stable addresses. -/
structure Runtime where
  agents : List Backend.AgentMeta
  name_counter : Nat
  equation_stack : List (NNValue × NNValue)
  max_stack_size : Nat
  overflowed : Bool
  heap : List RefC

/-- Allocate a fresh agent cell with empty slots (vm.rs
`Runtime::new_agent`); the agent table index is always in range for built
programs. -/
def Runtime.new_agent (rt : Runtime) (agent_id : Backend.AgentId) : Value :=
  match rt with
  | ⟨agents, _, _, _, _, _⟩ =>
    let arity := (((agents.get? agent_id).map (fun m => m.arity)).getD 0)
    .term (some (.mk agent_id (List.replicate arity (.term none))))

/-- Allocate a fresh unbound name cell (vm.rs `Runtime::new_name`). -/
def Runtime.new_name : Runtime → Value × Runtime
  | ⟨agents, name_counter, equation_stack, max_stack_size, overflowed, heap⟩ =>
    (.ref heap.length,
      ⟨agents, name_counter + 1, equation_stack, max_stack_size, overflowed,
        heap ++ [.name (name_counter + 1)]⟩)

/-- Push an equation; past the configured bound the first crossing only
flips `overflowed` (and prints a warning on stderr) — execution continues
(vm.rs `Runtime::push_equation`). -/
def Runtime.push_equation : Runtime → NNValue → NNValue → Runtime
  | ⟨agents, name_counter, equation_stack, max_stack_size, overflowed, heap⟩,
      lhs, rhs =>
    let equation_stack := equation_stack ++ [(lhs, rhs)]
    if !overflowed ∧ equation_stack.length > max_stack_size then
      ⟨agents, name_counter, equation_stack, max_stack_size, true, heap⟩
    else
      ⟨agents, name_counter, equation_stack, max_stack_size, overflowed, heap⟩

/-- Pop the newest equation (vm.rs `Runtime::pop_equation`). -/
def Runtime.pop_equation : Runtime →
    Option ((NNValue × NNValue) × Runtime)
  | ⟨agents, name_counter, equation_stack, max_stack_size, overflowed, heap⟩ =>
    match equation_stack.getLast? with
    | some e => some (e,
        ⟨agents, name_counter, equation_stack.dropLast, max_stack_size,
          overflowed, heap⟩)
    | none => none

/-- Fuelled term printer (vm.rs `Runtime::print` / `print_non_null` /
`print_term` merged over `Value`): `max_recursion` is decremented on each
agent-argument descent exactly as in the source, while `fuel` only bounds
the (finite but non-structural) indirection chasing; with enough fuel the
result is the source's. -/
def printV (rt : Runtime) : Nat → Value → Nat → String
  | 0, _, _ => ""
  | fuel + 1, v, max_recursion =>
    if max_recursion = 0 then "..." else
    match v with
    | .term none => "?"
    | .term (some (.mk id slots)) =>
      let s := (((rt.agents.get? id).map (fun m => m.name)).getD "")
      match slots with
      | [] => s
      | _ => s ++ "(" ++ String.intercalate ", "
          (slots.map (fun slot => printV rt fuel slot (max_recursion - 1))) ++ ")"
    | .ref addr =>
      match rt.heap.getD addr (.name 0) with
      | .name n => "x" ++ toString n
      | .value t => printV rt fuel t.toValue max_recursion

/-- Print budget ample for every term in this development. -/
def printFuel : Nat := 100000

/-- Error-message rendering of an agent cell (vm.rs `Runtime::print_term`,
always called with `max_recursion = 3`). -/
def Runtime.print_term (rt : Runtime) (t : TermT) (max_recursion : Nat) :
    String :=
  printV rt printFuel (.term (some t)) max_recursion

/-- Execution errors raised while running initializers and instructions
(vm.rs `ExecutionError`). -/
inductive ExecutionError where
  | InvalidInstruction (inst : String)
  | SlotNotFound (agent : String) (slot : Nat) (inst : String)
  | UninitializedLocal (localName : String) (inst : String)
  | InvalidRead (var : String) (inst : String)
deriving Repr, DecidableEq

/-- Top-level runtime errors (vm.rs `RuntimeError`); note there is no
stack-overflow variant. -/
inductive RuntimeError where
  | RuleNotFound (left right : String)
  | MainError (e : ExecutionError)
  | RuleError (desc : String) (e : ExecutionError)
deriving Repr, DecidableEq

/-- Register file of one activation (vm.rs `StackFrame`). -/
structure StackFrame where
  names : List Value
  agents : List Value
  slots : List Value

/-- Empty frame (`StackFrame::new`). -/
def StackFrame.empty : StackFrame := ⟨[], [], []⟩

/-- Grow a register vector with `Term(None)` up to an index (vm.rs
`StackFrame::prepare_index`). -/
def prepare_index (vec : List Value) (index : Nat) : List Value :=
  if vec.length ≤ index then
    vec ++ List.replicate (index + 1 - vec.length) (.term none)
  else vec

/-- Take the value at an index out of a register vector (the `take` reads of
vm.rs `StackFrame::get`); an out-of-range read (a Rust panic, unreachable
for built programs) yields `Term(None)`. -/
def listTake (vec : List Value) (i : Nat) : Value × List Value :=
  match vec.get? i with
  | some v => ((v.take).1, vec.set i (v.take).2)
  | none => (.term none, vec)

/-- Move a local's value out of the frame (vm.rs `StackFrame::get`). -/
def StackFrame.get : StackFrame → Backend.Local → Value × StackFrame
  | ⟨names, agents, slots⟩, .Name index =>
    let (v, names) := listTake names index
    (v, ⟨names, agents, slots⟩)
  | ⟨names, agents, slots⟩, .Agent index =>
    let (v, agents) := listTake agents index
    (v, ⟨names, agents, slots⟩)
  | ⟨names, agents, slots⟩, .Slot index =>
    let (v, slots) := listTake slots index
    (v, ⟨names, agents, slots⟩)

/-- Read a local without moving it (the read half of vm.rs
`StackFrame::get_mut`). -/
def StackFrame.read : StackFrame → Backend.Local → Value
  | ⟨names, _, _⟩, .Name index => names.getD index (.term none)
  | ⟨_, agents, _⟩, .Agent index => agents.getD index (.term none)
  | ⟨_, _, slots⟩, .Slot index => slots.getD index (.term none)

/-- Overwrite a local in place (the write-back half of vm.rs
`StackFrame::get_mut`). -/
def StackFrame.write : StackFrame → Backend.Local → Value → StackFrame
  | ⟨names, agents, slots⟩, .Name index, v => ⟨names.set index v, agents, slots⟩
  | ⟨names, agents, slots⟩, .Agent index, v => ⟨names, agents.set index v, slots⟩
  | ⟨names, agents, slots⟩, .Slot index, v => ⟨names, agents, slots.set index v⟩

/-- Take slot `index` (1-based) out of an agent cell (vm.rs `Term::slot`). -/
def TermT.slot (t : TermT) (index : Nat) : Option (Value × TermT) :=
  match t with
  | .mk id slots =>
    match slots.get? (index - 1) with
    | some v => some ((v.take).1, .mk id (slots.set (index - 1) (v.take).2))
    | none => none

/-- Run entry-point initializers: only fresh names and agents are legal
(vm.rs `StackFrame::execute_main_initializers`). -/
def execute_main_initializers (rt : Runtime) (frame : StackFrame) :
    List Rt.Initializer → Except ExecutionError (Runtime × StackFrame)
  | [] => .ok (rt, frame)
  | initializer :: rest =>
    match frame, initializer with
    | ⟨names, agents, slots⟩, .Name index =>
      let names := prepare_index names index
      let (v, rt) := rt.new_name
      execute_main_initializers rt ⟨names.set index v, agents, slots⟩ rest
    | ⟨names, agents, slots⟩, .Agent index id =>
      let agents := prepare_index agents index
      execute_main_initializers rt
        ⟨names, agents.set index (rt.new_agent id), slots⟩ rest
    | _, _ => .error (.InvalidInstruction initializer.toStr)

/-- Run rule initializers against the two argument cells (vm.rs
`StackFrame::execute_initializers`). -/
def execute_initializers (rt : Runtime) (frame : StackFrame)
    (left right : TermT) :
    List Rt.Initializer →
      Except ExecutionError (Runtime × StackFrame × TermT × TermT)
  | [] => .ok (rt, frame, left, right)
  | initializer :: rest =>
    match frame, initializer with
    | ⟨names, agents, slots⟩, .Name index =>
      let names := prepare_index names index
      let (v, rt) := rt.new_name
      execute_initializers rt ⟨names.set index v, agents, slots⟩
        left right rest
    | ⟨names, agents, slots⟩, .Agent index id =>
      let agents := prepare_index agents index
      execute_initializers rt
        ⟨names, agents.set index (rt.new_agent id), slots⟩
        left right rest
    | ⟨names, agents, slots⟩, .SlotFromLeft index slot =>
      let slots := prepare_index slots index
      match left.slot slot with
      | some (v, left) =>
        execute_initializers rt ⟨names, agents, slots.set index v⟩
          left right rest
      | none =>
        .error (.SlotNotFound (rt.print_term left 3) slot initializer.toStr)
    | ⟨names, agents, slots⟩, .SlotFromRight index slot =>
      let slots := prepare_index slots index
      match right.slot slot with
      | some (v, right) =>
        execute_initializers rt ⟨names, agents, slots.set index v⟩
          left right rest
      | none =>
        .error (.SlotNotFound (rt.print_term right 3) slot initializer.toStr)

/-- Run instructions (vm.rs `StackFrame::execute_instructions`). -/
def execute_instructions (rt : Runtime) (frame : StackFrame) :
    List Rt.Instruction → Except ExecutionError (Runtime × StackFrame)
  | [] => .ok (rt, frame)
  | instruction :: rest =>
    match instruction with
    | .SetSlot target slot value =>
      let (v, frame) := frame.get value
      match frame.read target with
      | .term (some term) =>
        match term.slots.get? (slot - 1) with
        | some _ =>
          let frame := frame.write target
            (.term (some (.mk term.id (term.slots.set (slot - 1) v))))
          execute_instructions rt frame rest
        | none =>
          .error (.SlotNotFound (rt.print_term term 3) slot instruction.toStr)
      | .term none =>
        .error (.UninitializedLocal (Rt.localToStr target) instruction.toStr)
      | .ref _ =>
        .error (.InvalidRead (Rt.localToStr target) instruction.toStr)
    | .PushEquation left right _ =>
      let (lv, frame) := frame.get left
      match lv.tryIntoNN with
      | none =>
        .error (.UninitializedLocal (Rt.localToStr left) instruction.toStr)
      | some l =>
        let (rv, frame) := frame.get right
        match rv.tryIntoNN with
        | none =>
          .error (.UninitializedLocal (Rt.localToStr right) instruction.toStr)
        | some r =>
          execute_instructions (rt.push_equation l r) frame rest

/-- Entry-point execution (vm.rs `StackFrame::execute_main`). -/
def execute_main (rt : Runtime) (frame : StackFrame)
    (initializers : List Rt.Initializer) (instructions : List Rt.Instruction) :
    Except ExecutionError (Runtime × StackFrame) := do
  let (rt, frame) ← execute_main_initializers rt frame initializers
  execute_instructions rt frame instructions

/-- Rule activation (vm.rs `StackFrame::execute`); the mutated argument
cells are dropped afterwards exactly as in the source (they were moved into
the call). -/
def execute (rt : Runtime) (frame : StackFrame)
    (initializers : List Rt.Initializer) (instructions : List Rt.Instruction)
    (lhs rhs : TermT) : Except ExecutionError (Runtime × StackFrame) := do
  let (rt, frame, _, _) ← execute_initializers rt frame lhs rhs initializers
  execute_instructions rt frame instructions

/-- The virtual machine (vm.rs `VM`); the `trace` / `timing` flags only
control stderr logging and are dropped. -/
structure VM where
  runtime : Runtime
  rule_map : List ((Backend.AgentId × Backend.AgentId) × Rt.Rule)
  main : Rt.Main

/-- Overwrite-or-append insertion keyed by agent-id pairs (the `HashMap`
collected by vm.rs `VM::new`). -/
def insertRule (m : List ((Backend.AgentId × Backend.AgentId) × Rt.Rule))
    (k : Backend.AgentId × Backend.AgentId) (v : Rt.Rule) :
    List ((Backend.AgentId × Backend.AgentId) × Rt.Rule) :=
  match m with
  | [] => [(k, v)]
  | e :: rest => if e.1 = k then (k, v) :: rest else e :: insertRule rest k v

/-- Construct the VM from a runtime program (vm.rs `VM::new` plus the
missing `ir::Main` glue of `Rt.mainOf`); `none` models the `unwrap` panic on
a malformed rule map. -/
def VM.new (program : Rt.Program) (stack_size : Nat) : Option VM := do
  let main ← Rt.mainOf program
  let rule_map ← go (program.rules.map Option.some) program.rule_map []
  some
    { runtime :=
        { agents := program.agents, name_counter := 0, equation_stack := [],
          max_stack_size := stack_size, overflowed := false, heap := [] },
      rule_map := rule_map, main := main }
where
  go (rules : List (Option Rt.Rule)) :
      List (Backend.AgentId × Backend.AgentId × Nat) →
      List ((Backend.AgentId × Backend.AgentId) × Rt.Rule) →
      Option (List ((Backend.AgentId × Backend.AgentId) × Rt.Rule))
  | [], acc => some acc
  | (lhs, rhs, i) :: rest, acc => do
    let rule ← (rules.getD i none)
    go (rules.set i none) rest (insertRule acc (lhs, rhs) rule)

/-- Bind an unbound name to the other endpoint in place (vm.rs
`VM::reduce_variable`): the ref cell is retagged into an indirection;
nothing is pushed. -/
def VM.reduce_variable : VM → Nat → NNValue → VM
  | ⟨⟨agents, name_counter, equation_stack, max_stack_size, overflowed, heap⟩,
      rule_map, main⟩, addr, rhs =>
    ⟨⟨agents, name_counter, equation_stack, max_stack_size, overflowed,
        heap.set addr (.value rhs)⟩, rule_map, main⟩

/-- Dereference an indirection (vm.rs `VM::reduce_indirection`): its target
is re-pushed with the other endpoint and the cell is emptied to
`Ref::Name(0)` (the source's swap residue). -/
def VM.reduce_indirection : VM → Nat → NNValue → VM
  | ⟨⟨agents, name_counter, equation_stack, max_stack_size, overflowed, heap⟩,
      rule_map, main⟩, addr, rhs =>
    let value := match heap.getD addr (.name 0) with
      | .value v => v
      | .name _ => .ref addr
    ⟨Runtime.push_equation
        ⟨agents, name_counter, equation_stack, max_stack_size, overflowed,
          heap.set addr (.name 0)⟩ value rhs, rule_map, main⟩

/-- Agent-agent interaction (vm.rs `VM::reduce_interaction`): canonicalise
so the smaller id is the left argument, then dispatch the mapped rule or
fail with `RuleNotFound`. -/
def VM.reduce_interaction : VM → TermT → TermT → Except RuntimeError VM
  | ⟨runtime, rule_map, main⟩, lhs, rhs =>
    let id_left := lhs.id
    let id_right := rhs.id
    let (id_left, id_right, lhs, rhs) :=
      if id_right < id_left then (id_right, id_left, rhs, lhs)
      else (id_left, id_right, lhs, rhs)
    match (rule_map.find? (fun e => e.1 = (id_left, id_right))).map
        (fun e => e.2) with
    | some rule =>
      match execute runtime StackFrame.empty rule.initializers
          rule.instructions lhs rhs with
      | .ok (rt, _) => .ok ⟨rt, rule_map, main⟩
      | .error e => .error (.RuleError rule.description e)
    | none =>
      .error (.RuleNotFound (runtime.print_term lhs 3)
        (runtime.print_term rhs 3))

/-- One iteration of the reduction loop (the body of vm.rs `VM::run`):
pop an equation and dispatch on the cells; `none` means the stack was
empty and the loop ends. -/
def VM.step : VM → Except RuntimeError (Option VM)
  | ⟨runtime, rule_map, main⟩ =>
    match runtime.pop_equation with
    | none => .ok none
    | some ((lhs, rhs), rt) =>
      let vm : VM := ⟨rt, rule_map, main⟩
      match lhs with
      | .ref addr =>
        match rt.heap.getD addr (.name 0) with
        | .name _ => .ok (some (vm.reduce_variable addr rhs))
        | .value _ => .ok (some (vm.reduce_indirection addr rhs))
      | .term tl =>
        match rhs with
        | .ref addr =>
          match rt.heap.getD addr (.name 0) with
          | .name _ => .ok (some (vm.reduce_variable addr (.term tl)))
          | .value _ => .ok (some (vm.reduce_indirection addr (.term tl)))
        | .term tr => (vm.reduce_interaction tl tr).map some

/-- Iterate the reduction loop under fuel; `some vm` is normal loop exit,
`none` is fuel exhaustion. -/
def VM.loopN : Nat → VM → Except RuntimeError (Option VM)
  | 0, _ => .ok none
  | n + 1, vm =>
    match vm.step with
    | .error e => .error e
    | .ok none => .ok (some vm)
    | .ok (some vm) => VM.loopN n vm

/-- Print the interface outputs after the loop (the output loop of vm.rs
`VM::run`). -/
def printOutputs (rt : Runtime) (frame : StackFrame) :
    List Backend.Local → List String × StackFrame
  | [] => ([], frame)
  | out :: rest =>
    let (v, frame) := frame.get out
    let s := printV rt printFuel v 1000
    let (ss, frame) := printOutputs rt frame rest
    (s :: ss, frame)

/-- Whole interpreter run (vm.rs `VM::run`): execute the entry point, drain
the equation stack, then print one line per interface output.  `ok none`
means the fuel ran out before the stack drained. -/
def VM.run : VM → Nat → Except RuntimeError (Option (List String))
  | ⟨runtime, rule_map, main⟩, fuel =>
    match main with
    | ⟨initializers, instructions, outputs⟩ =>
      match execute_main runtime StackFrame.empty initializers instructions with
      | .error e => .error (.MainError e)
      | .ok (rt, main_frame) =>
        match VM.loopN fuel ⟨rt, rule_map, ⟨initializers, instructions, outputs⟩⟩ with
        | .error e => .error e
        | .ok none => .ok none
        | .ok (some vm) =>
          match vm with
          | ⟨runtime, _, _⟩ =>
            .ok (some (printOutputs runtime main_frame outputs).1)

/-- Check, build and interpret a module: the `run` pipeline of the VM
backend (`none` when building or VM construction fails). -/
def runModule (module : Ast.Module) (stack_size fuel : Nat) :
    Option (Except RuntimeError (Option (List String))) := do
  let prog ← (Rt.build_runtime module).toOption
  let vm ← VM.new prog stack_size
  some (vm.run fuel)

end Vm

namespace CTarget

/-- Stack push of the emitted C runtime (runtime/target/c.rs, the
`push_equation` of `C::RUNTIME`): at or above `MAX_STACK_SIZE` it prints a
stack-overflow error with a `--stack-size` hint and exits — modelled as
`none`; otherwise the pair is stored and the size grows. -/
def push_equation {α : Type} (max_stack_size : Nat) (eq_stack : List α)
    (x : α) : Option (List α) :=
  if eq_stack.length ≥ max_stack_size then none
  else some (eq_stack ++ [x])

end CTarget

section Examples

open Ast

/-- The Peano-addition module exactly as the spec's scenario writes it:
rules `S(#x) >< A(#y, #w) => #x = A(#y, #z), #w = S(#z)` and
`O >< A(#y, #w) => #y = #w`, net `Main <| #r |> S(S(O)) = A(S(S(O)), #r)`. -/
def peanoModule : Ast.Module :=
  { rules :=
      [ { term_pair :=
            { left := { agent := "S", body := [.In "x"] },
              right := { agent := "A", body := [.In "y", .In "w"] } },
          equations :=
            [ { left := .name (.In "x"),
                right := .agent "A" [.name (.In "y"), .name (.In "z")] },
              { left := .name (.In "w"),
                right := .agent "S" [.name (.In "z")] } ] },
        { term_pair :=
            { left := { agent := "O", body := [] },
              right := { agent := "A", body := [.In "y", .In "w"] } },
          equations :=
            [ { left := .name (.In "y"), right := .name (.In "w") } ] } ],
    nets :=
      [ { name := "Main",
          interfaces := [.name (.In "r")],
          equations :=
            [ { left := .agent "S" [.agent "S" [.agent "O" []]],
                right := .agent "A"
                  [.agent "S" [.agent "S" [.agent "O" []]],
                   .name (.In "r")] } ] } ] }

/-- The Peano-addition module with the minimal polarity adjustments that the
checker's balance and direction rules force: the second occurrences of `z`,
`w` and `r` flip to `@`, and the `w` argument of the `O` rule's head flips
to `@` so its body occurrence balances. -/
def peanoModuleAmended : Ast.Module :=
  { rules :=
      [ { term_pair :=
            { left := { agent := "S", body := [.In "x"] },
              right := { agent := "A", body := [.In "y", .In "w"] } },
          equations :=
            [ { left := .name (.In "x"),
                right := .agent "A" [.name (.In "y"), .name (.In "z")] },
              { left := .name (.In "w"),
                right := .agent "S" [.name (.Out "z")] } ] },
        { term_pair :=
            { left := { agent := "O", body := [] },
              right := { agent := "A", body := [.In "y", .Out "w"] } },
          equations :=
            [ { left := .name (.In "y"), right := .name (.Out "w") } ] } ],
    nets :=
      [ { name := "Main",
          interfaces := [.name (.In "r")],
          equations :=
            [ { left := .agent "S" [.agent "S" [.agent "O" []]],
                right := .agent "A"
                  [.agent "S" [.agent "S" [.agent "O" []]],
                   .name (.Out "r")] } ] } ] }

/-- A minimal checked module whose net pushes exactly one equation:
`Main <| |> #x = @x`. -/
def onePushModule : Ast.Module :=
  { rules := [],
    nets :=
      [ { name := "Main",
          interfaces := [],
          equations :=
            [ { left := .name (.In "x"), right := .name (.Out "x") } ] } ] }

/-- A checked module whose reduction pops an equation with an indirection on
the right while the left is an unbound name:
`Main <| @y |> #y = @x, #x = A`. -/
def indirModule : Ast.Module :=
  { rules := [],
    nets :=
      [ { name := "Main",
          interfaces := [.name (.Out "y")],
          equations :=
            [ { left := .name (.In "y"), right := .name (.Out "x") },
              { left := .name (.In "x"), right := .agent "A" [] } ] } ] }

end Examples

/-- The VM for `indirModule`, stack size 1024. -/
def c4vm0 : Option Vm.VM :=
  (Rt.build_runtime indirModule).toOption.bind (fun prog => Vm.VM.new prog 1024)

/-- The same VM after the entry-point phase of `VM::run` (initializers and
instructions of `Main` executed, equation stack populated). -/
def c4vmStarted : Option Vm.VM :=
  c4vm0.bind (fun vm =>
    match Vm.execute_main vm.runtime Vm.StackFrame.empty vm.main.initializers
        vm.main.instructions with
    | .ok (rt, _) => some { vm with runtime := rt }
    | .error _ => none)

/-- One successful reduction-loop iteration later. -/
def c4vm1 : Option Vm.VM :=
  c4vmStarted.bind (fun vm =>
    match vm.step with
    | .ok (some v) => some v
    | _ => none)

/-- Two successful reduction-loop iterations later. -/
def c4vm2 : Option Vm.VM :=
  c4vm1.bind (fun vm =>
    match vm.step with
    | .ok (some v) => some v
    | _ => none)

/-!
Claim theorems.
-/

/-- Ordered pair of head agent symbols of a rule — the key used by
`check_overlapping`. -/
def ruleKey (r : Ast.Rule) : String × String :=
  (r.term_pair.left.agent, r.term_pair.right.agent)

/-- A module with two rules whose heads are reversals of each other:
`A >< B => _` and `B >< A => _`, plus an empty `Main`. -/
def reversedHeadsModule : Ast.Module :=
  { rules :=
      [ { term_pair :=
            { left := { agent := "A", body := [] },
              right := { agent := "B", body := [] } },
          equations := [] },
        { term_pair :=
            { left := { agent := "B", body := [] },
              right := { agent := "A", body := [] } },
          equations := [] } ],
    nets := [ { name := "Main", interfaces := [], equations := [] } ] }

/-- A module with two rules sharing the same ordered head pair `(A, B)`. -/
def duplicateHeadsModule : Ast.Module :=
  { rules :=
      [ { term_pair :=
            { left := { agent := "A", body := [] },
              right := { agent := "B", body := [] } },
          equations := [] },
        { term_pair :=
            { left := { agent := "A", body := [] },
              right := { agent := "B", body := [] } },
          equations := [] } ],
    nets := [ { name := "Main", interfaces := [], equations := [] } ] }

/-- Opposite-flag seeding of a single head name: `#` seeds `false` (occurred
as output), `@` seeds `true` (occurred as input). -/
def seedFlag : Ast.Name → Bool
  | .In _ => false
  | .Out _ => true

/-- Specification-side description of the head-argument record built by
`goSlots`: one entry per head name, slots counted from the start offset. -/
def slotSeed (ns : List Ast.Name) (side : Nat → Backend.ArgSlot) (i : Nat) :
    List (String × Backend.ArgSlot) :=
  match ns with
  | [] => []
  | n :: rest => (n.as_name, side (i + 1)) :: slotSeed rest side (i + 1)

/-- Specification-side description of the slot-import prefix of a built
rule: one import per head-argument name, in head order, the left head
first, with 1-based slot equal to the argument position plus one and
register indices counted across both heads. -/
def slotInits (ls rs : List Ast.Name) : List Backend.RuleInitializer :=
  (List.range ls.length).map
    (fun k => Backend.RuleInitializer.SlotFromLeft k (k + 1)) ++
  (List.range rs.length).map
    (fun k => Backend.RuleInitializer.SlotFromRight (ls.length + k) (k + 1))

/-- Invariant of the accumulated `RulesBuilder` state: one dispatch entry
per stored rule; every entry is an ordered id pair carrying its own position
as rule index, and the rule stored at that position records the same
index. -/
def RulesInv (st : Backend.RulesBuilder) : Prop :=
  st.rules.length = st.rule_map.length ∧
  ∀ k e, st.rule_map.get? k = some e →
    e.1 ≤ e.2.1 ∧ e.2.2 = k ∧
    ∃ ru, st.rules.get? k = some ru ∧ ru.index = k

/-- Concrete agent table with `A` pre-interned after the reserved `$`. -/
def swapGlobal : List Backend.AgentMeta := [⟨"$", 1⟩, ⟨"A", 0⟩]

/-- Rule `B >< A => _` whose left head interns to the larger id. -/
def swapRule : Ast.Rule := ⟨⟨⟨"B", []⟩, ⟨"A", []⟩⟩, []⟩

/-- Agent table after lowering `swapRule`. -/
def swapG' : List Backend.AgentMeta := [⟨"$", 1⟩, ⟨"A", 0⟩, ⟨"B", 0⟩]

/-- Builder state after lowering `swapRule` from the empty state. -/
def swapSt' : Backend.RulesBuilder :=
  ⟨[⟨0, swapRule.toStr, [], [.FreeLeft, .FreeRight]⟩], [(1, 2, 0)]⟩

/-- Spec-side (for comparison with `count_names`): all name occurrences of a
term, nested ones inside agent arguments included, in walk order. -/
def specTermNames : Ast.Term → List Ast.Name
  | .name n => [n]
  | .agent _ body => goList body
where
  goList : List Ast.Term → List Ast.Name
  | [] => []
  | t :: ts => specTermNames t ++ goList ts

/-- Spec-side: all name occurrences of a run of equations, left term before
right term. -/
def specEqNames : List Ast.Equation → List Ast.Name
  | [] => []
  | e :: es => specTermNames e.left ++ specTermNames e.right ++ specEqNames es

/-- Spec-side: the name multiset of a rule — both heads' argument lists,
then all occurrences in the body equations. -/
def specRuleNames (rule : Ast.Rule) : List Ast.Name :=
  rule.term_pair.left.body ++ rule.term_pair.right.body ++
    specEqNames rule.equations

/-- Spec-side: all name occurrences of a run of interface terms. -/
def specIfNames : List Ast.Term → List Ast.Name
  | [] => []
  | t :: ts => specTermNames t ++ specIfNames ts

/-- Spec-side: the name multiset of a net — equations then interfaces (the
walk order of check.rs `check_net_variables`). -/
def specNetNames (net : Ast.Net) : List Ast.Name :=
  specEqNames net.equations ++ specIfNames net.interfaces

/-- Spec-side: occurrence count of a name string in a name run. -/
def specCount : List Ast.Name → String → Nat
  | [], _ => 0
  | n :: rest, s => (if n.as_name = s then 1 else 0) + specCount rest s

/-- Count recorded for a key in a counting table, zero when absent. -/
def tableCount (m : List (String × (Int × Ast.Name))) (s : String) : Int :=
  match Check.lookupA m s with
  | some (c, _) => c
  | none => 0

/-- Rule `C(#x) >< D(@x) => _`: each head mentions `x` once, so its count
over the rule is exactly two. -/
def ruleW : Ast.Rule := ⟨⟨⟨"C", [.In "x"]⟩, ⟨"D", [.Out "x"]⟩⟩, []⟩

/-- Net `Main <| #y |> _`: the single interface name `y` occurs once. -/
def netW : Ast.Net := ⟨"Main", [.name (.In "y")], []⟩

/-- C1, counterexample: the Peano-addition module exactly as the claim
writes it is rejected by the checker — inside the first rule's body the
name `z` occurs twice with the `#` sigil, so the rule IO-balance check
fails with `MultipleTimesAsInput` and compilation does not succeed. -/
theorem c1_peano_as_written_rejected :
    Check.check_module peanoModule =
      .error (.MultipleTimesAsInput (.In "z")) := by
  rfl

/-- C1, amended: with the minimal polarity adjustments forced by the
checker (second occurrences of `z`, `w`, `r` flipped to `@`, and the `O`
rule's head argument `@w`), the module passes `check_module`, and building
and interpreting it in the VM terminates and prints exactly one line
`S(S(S(S(O))))`. -/
theorem c1_peano_amended_compiles_and_runs :
    Check.check_module peanoModuleAmended = .ok () ∧
    Vm.runModule peanoModuleAmended 1024 100 =
      some (.ok (some ["S(S(S(S(O))))"])) := by
  exact ⟨rfl, rfl⟩

/-- C3, counterexample: `Main <| |> #x = @x` is a checked net that pushes
one equation, yet with `MAX_STACK_SIZE = 0` the VM does not fail with a
StackOverflow error — the run completes normally (the VM's `RuntimeError`
type has no stack-overflow variant at all; the crossing only sets the
`overflowed` warning flag). -/
theorem c3_vm_zero_stack_does_not_fail :
    Check.check_module onePushModule = .ok () ∧
    Vm.runModule onePushModule 0 100 = some (.ok (some [])) := by
  exact ⟨rfl, rfl⟩

/-- C3, amended: the two targets are the opposite of what the claim says.
The emitted C runtime's `push_equation` aborts with a stack-overflow error
whenever a push finds the stack already at `MAX_STACK_SIZE` (so with
`MAX_STACK_SIZE = 0` the very first push aborts), while the VM's
`push_equation` always stores the equation and only raises the one-shot
`overflowed` warning flag on crossing the bound, then continues. -/
theorem c3_overflow_roles_swapped :
    (∀ (max_stack_size : Nat) (eq_stack : List (Nat × Nat)) (x : Nat × Nat),
      eq_stack.length ≥ max_stack_size →
      CTarget.push_equation max_stack_size eq_stack x = none) ∧
    (∀ (max_stack_size : Nat) (eq_stack : List (Nat × Nat)) (x : Nat × Nat),
      eq_stack.length < max_stack_size →
      CTarget.push_equation max_stack_size eq_stack x = some (eq_stack ++ [x])) ∧
    (∀ (rt : Vm.Runtime) (l r : Vm.NNValue),
      (rt.push_equation l r).equation_stack = rt.equation_stack ++ [(l, r)] ∧
      (rt.push_equation l r).overflowed =
        (rt.overflowed ||
          decide (rt.equation_stack.length + 1 > rt.max_stack_size))) := by
  refine ⟨?_, ?_, ?_⟩
  · intro max stack x h
    simp [CTarget.push_equation, h]
  · intro max stack x h
    simp [CTarget.push_equation, Nat.not_le.mpr h]
  · intro rt l r
    cases rt with
    | mk agents nc stack max ov heap =>
      constructor
      · simp only [Vm.Runtime.push_equation]
        split <;> rfl
      · simp only [Vm.Runtime.push_equation]
        cases ov with
        | true => simp
        | false =>
          by_cases hlen : stack.length + 1 > max
          · simp [hlen]
          · simp [hlen]

/-- C3, witness for the amended theorem at concrete inputs: a push onto a
full (empty, bound 0) C stack aborts, and a push within bounds stores. -/
theorem c3_overflow_roles_swapped_witness :
    CTarget.push_equation 0 ([] : List (Nat × Nat)) (0, 0) = none ∧
    CTarget.push_equation 1 ([] : List (Nat × Nat)) (0, 0) =
      some ([] ++ [(0, 0)]) :=
  ⟨c3_overflow_roles_swapped.1 0 [] (0, 0) (by decide),
   c3_overflow_roles_swapped.2.1 1 [] (0, 0) (by decide)⟩

/-- C4, counterexample: in the VM built from `Main <| @y |> #y = @x, #x = A`,
the second loop iteration pops a pair whose right side (`Ref 1`) is an
indirection (its heap cell is bound to the agent `A`), yet the iteration
pushes nothing — the stack is empty afterwards, the bound cell at address 1
is left intact (not freed to `Ref::Name(0)`), and the unbound left name at
address 0 is retagged to point at the indirection.  This refutes the claimed
dispatch order: an indirection on the right is NOT dereferenced and
re-pushed when the left side is a name. -/
theorem c4_right_indirection_not_dereferenced :
    c4vm1.map
      (fun vm => (vm.runtime.equation_stack, vm.runtime.heap)) =
      some ([(.ref 0, .ref 1)],
        [.name 1, .value (.term (.mk 1 []))]) ∧
    c4vm2.map
      (fun vm => (vm.runtime.equation_stack, vm.runtime.heap)) =
      some ([], [.value (.ref 1), .value (.term (.mk 1 []))]) := by
  exact ⟨rfl, rfl⟩

/-- C4, amended: the reduction loop pops the newest pair (L, R) and
dispatches with a left bias.  If L is a ref cell it is handled first,
regardless of R: an unbound name is retagged in place into an indirection to
R and nothing is pushed (even when R is an indirection), while an
indirection is dereferenced — its target re-pushed with R and the cell
emptied to `Ref::Name(0)`.  Only when L is an agent is R inspected the same
way; when both sides are agents, the pair is canonicalised so the smaller
agent id becomes the left argument, the mapped rule is run with those two
cells, and a missing mapping is the fatal `RuleNotFound` error. -/
theorem c4_vm_dispatch_left_biased :
    (∀ (rm : List ((Backend.AgentId × Backend.AgentId) × Rt.Rule))
        (mn : Rt.Main) (agents : List Backend.AgentMeta) (nc : Nat)
        (stack : List (Vm.NNValue × Vm.NNValue)) (max : Nat) (ov : Bool)
        (heap : List Vm.RefC) (rhs : Vm.NNValue) (a u : Nat),
      heap.getD a (.name 0) = .name u →
      Vm.VM.step ⟨⟨agents, nc, stack ++ [(.ref a, rhs)], max, ov, heap⟩, rm, mn⟩ =
        .ok (some ⟨⟨agents, nc, stack, max, ov,
          heap.set a (.value rhs)⟩, rm, mn⟩)) ∧
    (∀ (rm : List ((Backend.AgentId × Backend.AgentId) × Rt.Rule))
        (mn : Rt.Main) (agents : List Backend.AgentMeta) (nc : Nat)
        (stack : List (Vm.NNValue × Vm.NNValue)) (max : Nat) (ov : Bool)
        (heap : List Vm.RefC) (rhs : Vm.NNValue) (a : Nat) (v : Vm.NNValue),
      heap.getD a (.name 0) = .value v →
      Vm.VM.step ⟨⟨agents, nc, stack ++ [(.ref a, rhs)], max, ov, heap⟩, rm, mn⟩ =
        .ok (some ⟨Vm.Runtime.push_equation
          ⟨agents, nc, stack, max, ov, heap.set a (.name 0)⟩ v rhs, rm, mn⟩)) ∧
    (∀ (rm : List ((Backend.AgentId × Backend.AgentId) × Rt.Rule))
        (mn : Rt.Main) (agents : List Backend.AgentMeta) (nc : Nat)
        (stack : List (Vm.NNValue × Vm.NNValue)) (max : Nat) (ov : Bool)
        (heap : List Vm.RefC) (tl : Vm.TermT) (a u : Nat),
      heap.getD a (.name 0) = .name u →
      Vm.VM.step ⟨⟨agents, nc, stack ++ [(.term tl, .ref a)], max, ov, heap⟩, rm, mn⟩ =
        .ok (some ⟨⟨agents, nc, stack, max, ov,
          heap.set a (.value (.term tl))⟩, rm, mn⟩)) ∧
    (∀ (rm : List ((Backend.AgentId × Backend.AgentId) × Rt.Rule))
        (mn : Rt.Main) (agents : List Backend.AgentMeta) (nc : Nat)
        (stack : List (Vm.NNValue × Vm.NNValue)) (max : Nat) (ov : Bool)
        (heap : List Vm.RefC) (tl : Vm.TermT) (a : Nat) (v : Vm.NNValue),
      heap.getD a (.name 0) = .value v →
      Vm.VM.step ⟨⟨agents, nc, stack ++ [(.term tl, .ref a)], max, ov, heap⟩, rm, mn⟩ =
        .ok (some ⟨Vm.Runtime.push_equation
          ⟨agents, nc, stack, max, ov, heap.set a (.name 0)⟩ v (.term tl),
            rm, mn⟩)) ∧
    (∀ (rm : List ((Backend.AgentId × Backend.AgentId) × Rt.Rule))
        (mn : Rt.Main) (agents : List Backend.AgentMeta) (nc : Nat)
        (stack : List (Vm.NNValue × Vm.NNValue)) (max : Nat) (ov : Bool)
        (heap : List Vm.RefC) (tl tr : Vm.TermT),
      Vm.VM.step ⟨⟨agents, nc, stack ++ [(.term tl, .term tr)], max, ov, heap⟩, rm, mn⟩ =
        (Vm.VM.reduce_interaction
          ⟨⟨agents, nc, stack, max, ov, heap⟩, rm, mn⟩ tl tr).map some) ∧
    (∀ (vm : Vm.VM) (tl tr : Vm.TermT),
      tr.id < tl.id →
      vm.reduce_interaction tl tr = vm.reduce_interaction tr tl) ∧
    (∀ (runtime : Vm.Runtime)
        (rm : List ((Backend.AgentId × Backend.AgentId) × Rt.Rule))
        (mn : Rt.Main) (tl tr : Vm.TermT),
      ¬ tr.id < tl.id →
      rm.find? (fun e => e.1 = (tl.id, tr.id)) = none →
      Vm.VM.reduce_interaction ⟨runtime, rm, mn⟩ tl tr =
        .error (.RuleNotFound (runtime.print_term tl 3)
          (runtime.print_term tr 3))) ∧
    (∀ (runtime : Vm.Runtime)
        (rm : List ((Backend.AgentId × Backend.AgentId) × Rt.Rule))
        (mn : Rt.Main) (tl tr : Vm.TermT)
        (k : Backend.AgentId × Backend.AgentId) (rule : Rt.Rule),
      ¬ tr.id < tl.id →
      rm.find? (fun e => e.1 = (tl.id, tr.id)) = some (k, rule) →
      Vm.VM.reduce_interaction ⟨runtime, rm, mn⟩ tl tr =
        (match Vm.execute runtime Vm.StackFrame.empty rule.initializers
            rule.instructions tl tr with
         | .ok (rt, _) => .ok ⟨rt, rm, mn⟩
         | .error e => .error (.RuleError rule.description e))) := by
  refine ⟨?_, ?_, ?_, ?_, ?_, ?_, ?_, ?_⟩
  · intro rm mn agents nc stack max ov heap rhs a u h
    simp only [List.getD, List.get?_eq_getElem?] at h
    simp [Vm.VM.step, Vm.Runtime.pop_equation, Vm.VM.reduce_variable, h]
  · intro rm mn agents nc stack max ov heap rhs a v h
    simp only [List.getD, List.get?_eq_getElem?] at h
    simp [Vm.VM.step, Vm.Runtime.pop_equation, Vm.VM.reduce_indirection, h]
  · intro rm mn agents nc stack max ov heap tl a u h
    simp only [List.getD, List.get?_eq_getElem?] at h
    simp [Vm.VM.step, Vm.Runtime.pop_equation, Vm.VM.reduce_variable, h]
  · intro rm mn agents nc stack max ov heap tl a v h
    simp only [List.getD, List.get?_eq_getElem?] at h
    simp [Vm.VM.step, Vm.Runtime.pop_equation, Vm.VM.reduce_indirection, h]
  · intro rm mn agents nc stack max ov heap tl tr
    simp [Vm.VM.step, Vm.Runtime.pop_equation]
  · intro vm tl tr h
    cases vm with
    | mk runtime rm mn =>
      simp only [Vm.VM.reduce_interaction]
      rw [if_pos h, if_neg (Nat.lt_asymm h)]
  · intro runtime rm mn tl tr h hfind
    simp [Vm.VM.reduce_interaction, if_neg h, hfind]
  · intro runtime rm mn tl tr k rule h hfind
    simp [Vm.VM.reduce_interaction, if_neg h, hfind]

/-- C4, witness for the amended dispatch theorem at concrete inputs: a
left unbound name is retagged even though the right side is an indirection,
and an unmapped agent pair fails with `RuleNotFound`. -/
theorem c4_vm_dispatch_left_biased_witness :
    Vm.VM.step ⟨⟨[], 0, [] ++ [(.ref 0, .ref 1)], 0, false,
        [.name 5, .value (.term (.mk 1 []))]⟩, [], ⟨[], [], []⟩⟩ =
      .ok (some ⟨⟨[], 0, [], 0, false,
        ([.name 5, .value (.term (.mk 1 []))].set 0
          (.value (.ref 1)))⟩, [], ⟨[], [], []⟩⟩) ∧
    Vm.VM.reduce_interaction
        ⟨⟨[], 0, [], 0, false, []⟩, [], ⟨[], [], []⟩⟩ (.mk 0 []) (.mk 0 []) =
      .error (.RuleNotFound
        ((⟨[], 0, [], 0, false, []⟩ : Vm.Runtime).print_term (.mk 0 []) 3)
        ((⟨[], 0, [], 0, false, []⟩ : Vm.Runtime).print_term (.mk 0 []) 3)) :=
  ⟨c4_vm_dispatch_left_biased.1 [] ⟨[], [], []⟩ [] 0 [] 0 false
      [.name 5, .value (.term (.mk 1 []))] (.ref 1) 0 5 rfl,
   c4_vm_dispatch_left_biased.2.2.2.2.2.2.1
      ⟨[], 0, [], 0, false, []⟩ [] ⟨[], [], []⟩ (.mk 0 []) (.mk 0 [])
      (by decide) rfl⟩

/-- Helper: if no element satisfies the name predicate, the enumerated
search of the agent interner finds nothing. -/
theorem enumFrom_find_name_none (name : String) :
    ∀ (l : List Backend.AgentMeta) (k : Nat),
      (∀ m ∈ l, m.name ≠ name) →
      (List.enumFrom k l).find? (fun e => e.2.name = name) = none := by
  intro l
  induction l with
  | nil => intro k _; rfl
  | cons m rest ih =>
    intro k h
    have hm : m.name ≠ name := h m (by simp)
    simp only [List.enumFrom, List.find?, decide_eq_false hm]
    exact ih (k + 1) (fun x hx => h x (by simp [hx]))

/-- Helper: the enumerated search of the agent interner returns the first
index whose entry carries the requested name, offset by the start index. -/
theorem enumFrom_find_name_first (name : String) :
    ∀ (l : List Backend.AgentMeta) (k i : Nat) (m0 : Backend.AgentMeta),
      l.get? i = some m0 → m0.name = name →
      (∀ j, j < i → ∀ m, l.get? j = some m → m.name ≠ name) →
      (List.enumFrom k l).find? (fun e => e.2.name = name) =
        some (k + i, m0) := by
  intro l
  induction l with
  | nil => intro k i m0 h; simp at h
  | cons m rest ih =>
    intro k i m0 hget hname hfirst
    cases i with
    | zero =>
      simp only [List.get?] at hget
      cases hget
      simp only [List.enumFrom, List.find?, decide_eq_true hname]
      simp
    | succ i =>
      have hm : m.name ≠ name := hfirst 0 (Nat.succ_pos i) m rfl
      simp only [List.enumFrom, List.find?, decide_eq_false hm]
      have := ih (k + 1) i m0 hget hname
        (fun j hj m' hm' => hfirst (j + 1) (Nat.succ_lt_succ hj) m' hm')
      rw [this]
      have harith : k + 1 + i = k + (i + 1) := by omega
      rw [harith]

/-- C7: the agent interner starts with the reserved `$` agent of arity 1 at
id 0; interning a never-seen name appends it and returns the fresh id (the
current table length); re-interning the first entry carrying the name with
the same arity returns its id and leaves the table unchanged; re-interning
it with a different arity fails with the arity-conflict error. -/
theorem c7_agent_interner :
    Backend.GlobalBuilder.default = [⟨"$", 1⟩] ∧
    (∀ (agents : List Backend.AgentMeta) (name : String) (arity : Nat),
      (∀ m ∈ agents, m.name ≠ name) →
      Backend.add_or_get_agent agents name arity =
        .ok (agents.length, agents ++ [⟨name, arity⟩])) ∧
    (∀ (agents : List Backend.AgentMeta) (name : String) (arity i : Nat),
      agents.get? i = some ⟨name, arity⟩ →
      (∀ j, j < i → ∀ m, agents.get? j = some m → m.name ≠ name) →
      Backend.add_or_get_agent agents name arity = .ok (i, agents)) ∧
    (∀ (agents : List Backend.AgentMeta) (name : String) (arity a i : Nat),
      agents.get? i = some ⟨name, a⟩ → a ≠ arity →
      (∀ j, j < i → ∀ m, agents.get? j = some m → m.name ≠ name) →
      Backend.add_or_get_agent agents name arity =
        .error (.AgentArityConflict name a arity)) := by
  refine ⟨rfl, ?_, ?_, ?_⟩
  · intro agents name arity h
    simp only [Backend.add_or_get_agent, List.enum,
      enumFrom_find_name_none name agents 0 h]
    rfl
  · intro agents name arity i hget hfirst
    simp only [Backend.add_or_get_agent, List.enum,
      enumFrom_find_name_first name agents 0 i ⟨name, arity⟩ hget rfl hfirst]
    simp
  · intro agents name arity a i hget hne hfirst
    simp only [Backend.add_or_get_agent, List.enum,
      enumFrom_find_name_first name agents 0 i ⟨name, a⟩ hget rfl hfirst]
    simp [hne]

/-- C7, witness: intern a fresh symbol into the default table, re-intern it
with matching arity, and hit the conflict with a different arity. -/
theorem c7_agent_interner_witness :
    Backend.add_or_get_agent [⟨"$", 1⟩] "S" 1 =
      .ok (([⟨"$", 1⟩] : List Backend.AgentMeta).length,
        [⟨"$", 1⟩] ++ [⟨"S", 1⟩]) ∧
    Backend.add_or_get_agent [⟨"$", 1⟩, ⟨"S", 1⟩] "S" 1 =
      .ok (1, [⟨"$", 1⟩, ⟨"S", 1⟩]) ∧
    Backend.add_or_get_agent [⟨"$", 1⟩, ⟨"S", 1⟩] "S" 2 =
      .error (.AgentArityConflict "S" 1 2) :=
  ⟨c7_agent_interner.2.1 [⟨"$", 1⟩] "S" 1 (by decide),
   c7_agent_interner.2.2.1 [⟨"$", 1⟩, ⟨"S", 1⟩] "S" 1 1 rfl
     (by
      intro j hj m hm
      interval_cases j
      · simp only [List.get?] at hm
        cases hm
        decide),
   c7_agent_interner.2.2.2 [⟨"$", 1⟩, ⟨"S", 1⟩] "S" 2 1 1 rfl (by decide)
     (by
      intro j hj m hm
      interval_cases j
      · simp only [List.get?] at hm
        cases hm
        decide)⟩

/-- Helper: success of the overlap fold means the keys of the remaining
rules are pairwise distinct and distinct from every key already seen. -/
theorem check_overlapping_go_ok :
    ∀ (rules : List Ast.Rule) (seen : List ((String × String) × Ast.Rule)),
      (Check.check_overlapping.go rules seen = .ok () ↔
        ((rules.map ruleKey).Pairwise (· ≠ ·) ∧
          ∀ r ∈ rules, ∀ e ∈ seen, ruleKey r ≠ e.1)) := by
  intro rules
  induction rules with
  | nil => intro seen; simp [Check.check_overlapping.go]
  | cons r rest ih =>
    intro seen
    simp only [Check.check_overlapping.go]
    cases hfind : seen.find? (fun e =>
        e.1 = (r.term_pair.left.agent, r.term_pair.right.agent)) with
    | some e =>
      simp only [hfind]
      constructor
      · intro h; cases h
      · intro ⟨_, hsep⟩
        have he : e.1 = ruleKey r := by
          simpa [ruleKey] using List.find?_some hfind
        exact ((hsep r (by simp) e (List.mem_of_find?_eq_some hfind))
          he.symm).elim
    | none =>
      simp only [hfind, ih]
      have hnone := List.find?_eq_none.mp hfind
      constructor
      · intro ⟨hpw, hsep⟩
        refine ⟨List.Pairwise.cons ?_ hpw, ?_⟩
        · intro k hk hEq
          obtain ⟨r', hr', hkey⟩ := List.mem_map.mp hk
          have h1 : ruleKey r' ≠
              (r.term_pair.left.agent, r.term_pair.right.agent) := by
            simpa using hsep r' hr'
              ((r.term_pair.left.agent, r.term_pair.right.agent), r) (by simp)
          exact h1 (by rw [hkey, ← hEq]; rfl)
        · intro r' hr' e he
          simp only [List.mem_cons] at hr'
          cases hr' with
          | inl hr' =>
            cases hr'
            intro hEq
            have h2 : ¬ (e.1 =
                (r.term_pair.left.agent, r.term_pair.right.agent)) := by
              simpa using hnone e he
            exact h2 hEq.symm
          | inr hr' =>
            exact hsep r' hr' e (by simp [he])
      · intro ⟨hpw, hsep⟩
        cases hpw with
        | cons hhead hrest =>
          refine ⟨hrest, ?_⟩
          intro r' hr' e he
          simp only [List.mem_cons] at he
          cases he with
          | inl he =>
            cases he
            have := hhead (ruleKey r') (List.mem_map_of_mem ruleKey hr')
            exact fun hEq => this hEq.symm
          | inr he => exact hsep r' (by simp [hr']) e he

/-- Helper: an overlap error names a rule and an earlier stored rule whose
ordered keys agree. -/
theorem check_overlapping_go_error :
    ∀ (rules : List Ast.Rule) (seen : List ((String × String) × Ast.Rule))
      (p1 p2 : Ast.RuleTermPair),
      (∀ e ∈ seen, e.1 = ruleKey e.2) →
      Check.check_overlapping.go rules seen =
        .error (.OverlappingRules p1 p2) →
      ((p1.left.agent, p1.right.agent) = (p2.left.agent, p2.right.agent) ∧
        (∃ r ∈ rules, r.term_pair = p1) ∧
        ((∃ r ∈ rules, r.term_pair = p2) ∨ (∃ e ∈ seen, e.2.term_pair = p2))) := by
  intro rules
  induction rules with
  | nil => intro seen p1 p2 _ h; cases h
  | cons r rest ih =>
    intro seen p1 p2 hinv h
    simp only [Check.check_overlapping.go] at h
    cases hfind : seen.find? (fun e =>
        e.1 = (r.term_pair.left.agent, r.term_pair.right.agent)) with
    | some e =>
      rw [hfind] at h
      cases h
      have he := List.find?_some hfind
      have hmem := List.mem_of_find?_eq_some hfind
      have hkey : e.1 = (r.term_pair.left.agent, r.term_pair.right.agent) := by
        simpa using he
      have hkey2 := hinv e hmem
      refine ⟨?_, ⟨r, by simp⟩, .inr ⟨e, hmem, rfl⟩⟩
      exact hkey.symm.trans hkey2
    | none =>
      rw [hfind] at h
      have := ih (((r.term_pair.left.agent, r.term_pair.right.agent), r) :: seen)
        p1 p2 (by
          intro e he
          simp only [List.mem_cons] at he
          cases he with
          | inl he => cases he; rfl
          | inr he => exact hinv e he) h
      obtain ⟨hk, ⟨r1, hr1, hp1⟩, hp2⟩ := this
      refine ⟨hk, ⟨r1, by simp [hr1], hp1⟩, ?_⟩
      cases hp2 with
      | inl hp2 =>
        obtain ⟨r2, hr2, hp2⟩ := hp2
        exact .inl ⟨r2, by simp [hr2], hp2⟩
      | inr hp2 =>
        obtain ⟨e, he, hp2⟩ := hp2
        simp only [List.mem_cons] at he
        cases he with
        | inl heq => cases heq; exact .inl ⟨r, by simp, hp2⟩
        | inr he => exact .inr ⟨e, he, hp2⟩

/-- Helper: the overlap check can only succeed or fail with
`OverlappingRules`. -/
theorem check_overlapping_go_shape :
    ∀ (rules : List Ast.Rule) (seen : List ((String × String) × Ast.Rule)),
      Check.check_overlapping.go rules seen = .ok () ∨
      ∃ p1 p2, Check.check_overlapping.go rules seen =
        .error (.OverlappingRules p1 p2) := by
  intro rules
  induction rules with
  | nil => intro seen; exact .inl rfl
  | cons r rest ih =>
    intro seen
    simp only [Check.check_overlapping.go]
    cases hfind : seen.find? (fun e =>
        e.1 = (r.term_pair.left.agent, r.term_pair.right.agent)) with
    | some e => exact .inr ⟨r.term_pair, e.2.term_pair, rfl⟩
    | none => exact ih _

/-- C2, amended: `check_overlapping` keys rules by the ORDERED pair of head
agent symbols.  It succeeds exactly when those ordered pairs are pairwise
distinct; on failure it reports `OverlappingRules` naming two rules of the
module whose ordered key pairs agree.  Two rules whose heads are reversals
of each other, `(A, B)` and `(B, A)`, are NOT treated as a conflict. -/
theorem c2_overlap_is_ordered :
    (∀ m : Ast.Module,
      Check.check_overlapping m = .ok () ↔
        (m.rules.map ruleKey).Pairwise (· ≠ ·)) ∧
    (∀ m : Ast.Module,
      Check.check_overlapping m = .ok () ∨
      ∃ p1 p2, Check.check_overlapping m =
        .error (.OverlappingRules p1 p2)) ∧
    (∀ (m : Ast.Module) (p1 p2 : Ast.RuleTermPair),
      Check.check_overlapping m = .error (.OverlappingRules p1 p2) →
      ((p1.left.agent, p1.right.agent) = (p2.left.agent, p2.right.agent) ∧
        (∃ r ∈ m.rules, r.term_pair = p1) ∧
        (∃ r ∈ m.rules, r.term_pair = p2))) := by
  refine ⟨?_, ?_, ?_⟩
  · intro m
    rw [Check.check_overlapping, check_overlapping_go_ok]
    simp
  · intro m
    exact check_overlapping_go_shape m.rules []
  · intro m p1 p2 h
    have := check_overlapping_go_error m.rules [] p1 p2 (by simp) h
    obtain ⟨hk, h1, h2⟩ := this
    refine ⟨hk, h1, ?_⟩
    cases h2 with
    | inl h2 => exact h2
    | inr h2 => obtain ⟨e, he, _⟩ := h2; simp at he

/-- C2, counterexample: rules with heads `(A, B)` and `(B, A)` share the
unordered pair of head symbols, yet both the overlap check and the whole
module check succeed — contradicting the claim that equality as unordered
pairs (including the reversed case) is rejected with `OverlappingRules`. -/
theorem c2_reversed_heads_not_detected :
    Check.check_overlapping reversedHeadsModule = .ok () ∧
    Check.check_module reversedHeadsModule = .ok () := by
  exact ⟨rfl, rfl⟩

/-- C2, witness for the amended theorem: the module with a duplicated
ordered head pair `(A, B)` fails, and the reported pairs carry equal ordered
keys and name two rules of the module. -/
theorem c2_overlap_is_ordered_witness :
    ((({ left := { agent := "A", body := [] },
         right := { agent := "B", body := [] } } :
          Ast.RuleTermPair).left.agent,
      ({ left := { agent := "A", body := [] },
         right := { agent := "B", body := [] } } :
          Ast.RuleTermPair).right.agent) =
     (({ left := { agent := "A", body := [] },
         right := { agent := "B", body := [] } } :
          Ast.RuleTermPair).left.agent,
      ({ left := { agent := "A", body := [] },
         right := { agent := "B", body := [] } } :
          Ast.RuleTermPair).right.agent)) ∧
    (∃ r ∈ duplicateHeadsModule.rules,
      r.term_pair =
        { left := { agent := "A", body := [] },
          right := { agent := "B", body := [] } }) ∧
    (∃ r ∈ duplicateHeadsModule.rules,
      r.term_pair =
        { left := { agent := "A", body := [] },
          right := { agent := "B", body := [] } }) :=
  c2_overlap_is_ordered.2.2 duplicateHeadsModule
    { left := { agent := "A", body := [] },
      right := { agent := "B", body := [] } }
    { left := { agent := "A", body := [] },
      right := { agent := "B", body := [] } }
    (by rfl)

/-- Helper: looking up the key just inserted yields the new value. -/
theorem lookupA_insertA_self {α : Type} (m : List (String × α)) (k : String)
    (v : α) : Check.lookupA (Check.insertA m k v) k = some v := by
  induction m with
  | nil => simp [Check.insertA, Check.lookupA]
  | cons e rest ih =>
    by_cases h : e.1 = k
    · simp [Check.insertA, h, Check.lookupA]
    · simp only [Check.insertA, if_neg h]
      simpa [Check.lookupA, List.find?, decide_eq_false h] using ih

/-- Helper: insertion does not disturb other keys. -/
theorem lookupA_insertA_ne {α : Type} (m : List (String × α)) (k k' : String)
    (v : α) (h : k' ≠ k) :
    Check.lookupA (Check.insertA m k v) k' = Check.lookupA m k' := by
  induction m with
  | nil => simp [Check.insertA, Check.lookupA, List.find?,
      decide_eq_false (fun hh : k = k' => h hh.symm)]
  | cons e rest ih =>
    by_cases he : e.1 = k
    · subst he
      simp only [Check.insertA, if_pos rfl]
      simp [Check.lookupA, List.find?,
        decide_eq_false (fun hh : e.1 = k' => h hh.symm)]
    · simp only [Check.insertA, if_neg he]
      by_cases he' : e.1 = k'
      · simp [Check.lookupA, List.find?, he']
      · simp only [Check.lookupA, List.find?,
          decide_eq_false (fun hh => he' (by simpa using hh))] at ih ⊢
        exact ih

/-- Helper: after seeding a run of head names, a key maps to the flag of its
last carrier, with `#` recorded as output and `@` as input. -/
theorem seed_fold_lookup :
    ∀ (ns : List Ast.Name) (m : List (String × Bool)) (s : String),
      Check.lookupA (ns.foldl Check.seedHeadName m) s =
        match (ns.filter (fun n => n.as_name = s)).getLast? with
        | none => Check.lookupA m s
        | some n => some (seedFlag n) := by
  intro ns
  induction ns with
  | nil => intro m s; rfl
  | cons n rest ih =>
    intro m s
    by_cases h : n.as_name = s
    · rw [List.foldl_cons, ih]
      cases hrest : rest.filter (fun n => n.as_name = s) with
      | nil =>
        have hseed : Check.lookupA (Check.seedHeadName m n) s = some (seedFlag n) := by
          cases n with
          | In s' =>
            simp only [Ast.Name.as_name] at h
            subst h
            simp [Check.seedHeadName, seedFlag, Ast.Name.as_name,
              lookupA_insertA_self]
          | Out s' =>
            simp only [Ast.Name.as_name] at h
            subst h
            simp [Check.seedHeadName, seedFlag, Ast.Name.as_name,
              lookupA_insertA_self]
        simp [List.filter_cons, h, hrest, hseed]
      | cons n' l =>
        simp only [List.filter_cons, decide_eq_true h, if_pos rfl, hrest]
        cases hlast : (n' :: l).getLast? with
        | none => simp at hlast
        | some nn => simp [List.getLast?_cons_cons, hlast]
    · rw [List.foldl_cons, ih]
      have hseed : Check.lookupA (Check.seedHeadName m n) s = Check.lookupA m s := by
        cases n with
        | In s' =>
          simp only [Ast.Name.as_name] at h
          exact lookupA_insertA_ne m s' s false (fun hh => h hh.symm)
        | Out s' =>
          simp only [Ast.Name.as_name] at h
          exact lookupA_insertA_ne m s' s true (fun hh => h hh.symm)
      simp [List.filter_cons, h, hseed]

/-- C9: rule IO-balance seeds every head-argument name with the role
opposite to its sigil — a `#` head name is recorded as having occurred as
output (`false`), an `@` head name as input (`true`), the last head
occurrence winning — and then walks the body equations, where a `#`
occurrence of a name already recorded as input fails with
`MultipleTimesAsInput` and an `@` occurrence of a name already recorded as
output fails with `MultipleTimesAsOutput`. -/
theorem c9_rule_io_balance_seeding :
    (∀ rule : Ast.Rule,
      Check.check_rule_io_balance rule =
        Check.check_equations_io_balance rule.equations
          ((rule.term_pair.left.body ++ rule.term_pair.right.body).foldl
            Check.seedHeadName [])) ∧
    (∀ (ns : List Ast.Name) (s : String),
      Check.lookupA (ns.foldl Check.seedHeadName []) s =
        match (ns.filter (fun n => n.as_name = s)).getLast? with
        | none => none
        | some n => some (seedFlag n)) ∧
    (∀ (s : String) (m : List (String × Bool)),
      Check.lookupA m s = some true →
      Check.check_term_io_balance (.name (.In s)) m =
        .error (.MultipleTimesAsInput (.In s))) ∧
    (∀ (s : String) (m : List (String × Bool)),
      Check.lookupA m s = some false →
      Check.check_term_io_balance (.name (.Out s)) m =
        .error (.MultipleTimesAsOutput (.Out s))) := by
  refine ⟨fun _ => rfl, ?_, ?_, ?_⟩
  · intro ns s
    rw [seed_fold_lookup]
    cases (ns.filter (fun n => n.as_name = s)).getLast? with
    | none => rfl
    | some n => rfl
  · intro s m h
    simp [Check.check_term_io_balance, Ast.Name.as_name, h]
  · intro s m h
    simp [Check.check_term_io_balance, Ast.Name.as_name, h]

/-- C9, witness: at concrete occurrence maps, a second `#` occurrence of a
name recorded as input fails as `MultipleTimesAsInput`, and a second `@`
occurrence of a name recorded as output fails as `MultipleTimesAsOutput`. -/
theorem c9_rule_io_balance_seeding_witness :
    Check.check_term_io_balance (.name (.In "z")) [("z", true)] =
      .error (.MultipleTimesAsInput (.In "z")) ∧
    Check.check_term_io_balance (.name (.Out "w")) [("w", false)] =
      .error (.MultipleTimesAsOutput (.Out "w")) :=
  ⟨c9_rule_io_balance_seeding.2.2.1 "z" [("z", true)] rfl,
   c9_rule_io_balance_seeding.2.2.2 "w" [("w", false)] rfl⟩

/-- Helper: a successful agent-initializer search returns the position of
the first `Agent` initializer carrying the requested id, together with its
register index. -/
theorem findAgentInit_some_spec (id : Backend.AgentId) :
    ∀ (inits : List Backend.RuleInitializer) (i n : Nat),
      Backend.findAgentInit id inits = some (i, n) →
      (inits.get? i = some (.Agent n id) ∧
        ∀ j, j < i → ∀ n', inits.get? j ≠ some (.Agent n' id)) := by
  intro inits
  induction inits with
  | nil => intro i n h; cases h
  | cons x rest ih =>
    intro i n h
    cases x with
    | Agent index xid =>
      by_cases hid : xid = id
      · subst hid
        simp only [Backend.findAgentInit, if_pos rfl] at h
        cases h
        exact ⟨rfl, fun j hj _ => absurd hj (Nat.not_lt_zero j)⟩
      · simp only [Backend.findAgentInit, if_neg hid] at h
        cases hfind : Backend.findAgentInit id rest with
        | none => rw [hfind] at h; cases h
        | some e =>
          rw [hfind] at h
          cases h
          obtain ⟨hget, hfirst⟩ := ih e.1 e.2 (by rw [hfind])
          refine ⟨hget, ?_⟩
          intro j hj n' hget'
          cases j with
          | zero =>
            simp only [List.get?] at hget'
            cases hget'
            exact hid rfl
          | succ j =>
            exact hfirst j (Nat.lt_of_succ_lt_succ hj) n' hget'
    | Name index =>
      simp only [Backend.findAgentInit] at h
      cases hfind : Backend.findAgentInit id rest with
      | none => rw [hfind] at h; cases h
      | some e =>
        rw [hfind] at h
        cases h
        obtain ⟨hget, hfirst⟩ := ih e.1 e.2 (by rw [hfind])
        refine ⟨hget, ?_⟩
        intro j hj n' hget'
        cases j with
        | zero => simp only [List.get?] at hget'; cases hget'
        | succ j => exact hfirst j (Nat.lt_of_succ_lt_succ hj) n' hget'
    | SlotFromLeft index slot =>
      simp only [Backend.findAgentInit] at h
      cases hfind : Backend.findAgentInit id rest with
      | none => rw [hfind] at h; cases h
      | some e =>
        rw [hfind] at h
        cases h
        obtain ⟨hget, hfirst⟩ := ih e.1 e.2 (by rw [hfind])
        refine ⟨hget, ?_⟩
        intro j hj n' hget'
        cases j with
        | zero => simp only [List.get?] at hget'; cases hget'
        | succ j => exact hfirst j (Nat.lt_of_succ_lt_succ hj) n' hget'
    | SlotFromRight index slot =>
      simp only [Backend.findAgentInit] at h
      cases hfind : Backend.findAgentInit id rest with
      | none => rw [hfind] at h; cases h
      | some e =>
        rw [hfind] at h
        cases h
        obtain ⟨hget, hfirst⟩ := ih e.1 e.2 (by rw [hfind])
        refine ⟨hget, ?_⟩
        intro j hj n' hget'
        cases j with
        | zero => simp only [List.get?] at hget'; cases hget'
        | succ j => exact hfirst j (Nat.lt_of_succ_lt_succ hj) n' hget'
    | ReuseLeft index =>
      simp only [Backend.findAgentInit] at h
      cases hfind : Backend.findAgentInit id rest with
      | none => rw [hfind] at h; cases h
      | some e =>
        rw [hfind] at h
        cases h
        obtain ⟨hget, hfirst⟩ := ih e.1 e.2 (by rw [hfind])
        refine ⟨hget, ?_⟩
        intro j hj n' hget'
        cases j with
        | zero => simp only [List.get?] at hget'; cases hget'
        | succ j => exact hfirst j (Nat.lt_of_succ_lt_succ hj) n' hget'
    | ReuseRight index =>
      simp only [Backend.findAgentInit] at h
      cases hfind : Backend.findAgentInit id rest with
      | none => rw [hfind] at h; cases h
      | some e =>
        rw [hfind] at h
        cases h
        obtain ⟨hget, hfirst⟩ := ih e.1 e.2 (by rw [hfind])
        refine ⟨hget, ?_⟩
        intro j hj n' hget'
        cases j with
        | zero => simp only [List.get?] at hget'; cases hget'
        | succ j => exact hfirst j (Nat.lt_of_succ_lt_succ hj) n' hget'

/-- Helper: a failed agent-initializer search means no `Agent` initializer
carries the requested id. -/
theorem findAgentInit_none_spec (id : Backend.AgentId) :
    ∀ (inits : List Backend.RuleInitializer),
      Backend.findAgentInit id inits = none →
      ∀ x ∈ inits, ∀ n, x ≠ .Agent n id := by
  intro inits
  induction inits with
  | nil => intro _ x hx; simp at hx
  | cons x rest ih =>
    intro h y hy n
    cases x with
    | Agent index xid =>
      by_cases hid : xid = id
      · subst hid; simp [Backend.findAgentInit] at h
      · simp only [Backend.findAgentInit, if_neg hid] at h
        cases hfind : Backend.findAgentInit id rest with
        | some e => rw [hfind] at h; cases h
        | none =>
          simp only [List.mem_cons] at hy
          cases hy with
          | inl hy => subst hy; intro hEq; cases hEq; exact hid rfl
          | inr hy => exact ih hfind y hy n
    | Name index =>
      simp only [Backend.findAgentInit] at h
      cases hfind : Backend.findAgentInit id rest with
      | some e => rw [hfind] at h; cases h
      | none =>
        simp only [List.mem_cons] at hy
        cases hy with
        | inl hy => subst hy; intro hEq; cases hEq
        | inr hy => exact ih hfind y hy n
    | SlotFromLeft index slot =>
      simp only [Backend.findAgentInit] at h
      cases hfind : Backend.findAgentInit id rest with
      | some e => rw [hfind] at h; cases h
      | none =>
        simp only [List.mem_cons] at hy
        cases hy with
        | inl hy => subst hy; intro hEq; cases hEq
        | inr hy => exact ih hfind y hy n
    | SlotFromRight index slot =>
      simp only [Backend.findAgentInit] at h
      cases hfind : Backend.findAgentInit id rest with
      | some e => rw [hfind] at h; cases h
      | none =>
        simp only [List.mem_cons] at hy
        cases hy with
        | inl hy => subst hy; intro hEq; cases hEq
        | inr hy => exact ih hfind y hy n
    | ReuseLeft index =>
      simp only [Backend.findAgentInit] at h
      cases hfind : Backend.findAgentInit id rest with
      | some e => rw [hfind] at h; cases h
      | none =>
        simp only [List.mem_cons] at hy
        cases hy with
        | inl hy => subst hy; intro hEq; cases hEq
        | inr hy => exact ih hfind y hy n
    | ReuseRight index =>
      simp only [Backend.findAgentInit] at h
      cases hfind : Backend.findAgentInit id rest with
      | some e => rw [hfind] at h; cases h
      | none =>
        simp only [List.mem_cons] at hy
        cases hy with
        | inl hy => subst hy; intro hEq; cases hEq
        | inr hy => exact ih hfind y hy n

/-- Helper: a successful `FreeLeft` search returns the position of the
first `FreeLeft`, and a failed one means there is none. -/
theorem findFreeLeft_spec :
    ∀ (instrs : List Backend.RuleInstruction),
      (∀ j, Backend.findFreeLeft instrs = some j →
        instrs.get? j = some .FreeLeft ∧
          ∀ j', j' < j → instrs.get? j' ≠ some .FreeLeft) ∧
      (Backend.findFreeLeft instrs = none → ∀ x ∈ instrs, x ≠ .FreeLeft) := by
  intro instrs
  induction instrs with
  | nil =>
    refine ⟨fun j h => ?_, fun _ x hx => ?_⟩
    · cases h
    · simp at hx
  | cons x rest ih =>
    constructor
    · intro j h
      cases x with
      | FreeLeft =>
        simp only [Backend.findFreeLeft] at h
        cases h
        exact ⟨rfl, fun j' hj' => absurd hj' (Nat.not_lt_zero j')⟩
      | SetSlot t sl v =>
        simp only [Backend.findFreeLeft] at h
        cases hfind : Backend.findFreeLeft rest with
        | none => rw [hfind] at h; cases h
        | some j0 =>
          rw [hfind] at h
          cases h
          obtain ⟨hget, hfirst⟩ := ih.1 j0 hfind
          refine ⟨hget, ?_⟩
          intro j' hj'
          cases j' with
          | zero => intro hc; simp only [List.get?] at hc; cases hc
          | succ j' => exact hfirst j' (Nat.lt_of_succ_lt_succ hj')
      | PushEquation l r d =>
        simp only [Backend.findFreeLeft] at h
        cases hfind : Backend.findFreeLeft rest with
        | none => rw [hfind] at h; cases h
        | some j0 =>
          rw [hfind] at h
          cases h
          obtain ⟨hget, hfirst⟩ := ih.1 j0 hfind
          refine ⟨hget, ?_⟩
          intro j' hj'
          cases j' with
          | zero => intro hc; simp only [List.get?] at hc; cases hc
          | succ j' => exact hfirst j' (Nat.lt_of_succ_lt_succ hj')
      | FreeRight =>
        simp only [Backend.findFreeLeft] at h
        cases hfind : Backend.findFreeLeft rest with
        | none => rw [hfind] at h; cases h
        | some j0 =>
          rw [hfind] at h
          cases h
          obtain ⟨hget, hfirst⟩ := ih.1 j0 hfind
          refine ⟨hget, ?_⟩
          intro j' hj'
          cases j' with
          | zero => intro hc; simp only [List.get?] at hc; cases hc
          | succ j' => exact hfirst j' (Nat.lt_of_succ_lt_succ hj')
    · intro h y hy
      cases x with
      | FreeLeft => simp [Backend.findFreeLeft] at h
      | SetSlot t sl v =>
        simp only [Backend.findFreeLeft] at h
        cases hfind : Backend.findFreeLeft rest with
        | some j0 => rw [hfind] at h; cases h
        | none =>
          simp only [List.mem_cons] at hy
          cases hy with
          | inl hy => subst hy; intro hEq; cases hEq
          | inr hy => exact ih.2 hfind y hy
      | PushEquation l r d =>
        simp only [Backend.findFreeLeft] at h
        cases hfind : Backend.findFreeLeft rest with
        | some j0 => rw [hfind] at h; cases h
        | none =>
          simp only [List.mem_cons] at hy
          cases hy with
          | inl hy => subst hy; intro hEq; cases hEq
          | inr hy => exact ih.2 hfind y hy
      | FreeRight =>
        simp only [Backend.findFreeLeft] at h
        cases hfind : Backend.findFreeLeft rest with
        | some j0 => rw [hfind] at h; cases h
        | none =>
          simp only [List.mem_cons] at hy
          cases hy with
          | inl hy => subst hy; intro hEq; cases hEq
          | inr hy => exact ih.2 hfind y hy

/-- Helper: same first-position specification for `FreeRight`. -/
theorem findFreeRight_spec :
    ∀ (instrs : List Backend.RuleInstruction),
      (∀ j, Backend.findFreeRight instrs = some j →
        instrs.get? j = some .FreeRight ∧
          ∀ j', j' < j → instrs.get? j' ≠ some .FreeRight) ∧
      (Backend.findFreeRight instrs = none → ∀ x ∈ instrs, x ≠ .FreeRight) := by
  intro instrs
  induction instrs with
  | nil =>
    refine ⟨fun j h => ?_, fun _ x hx => ?_⟩
    · cases h
    · simp at hx
  | cons x rest ih =>
    constructor
    · intro j h
      cases x with
      | FreeRight =>
        simp only [Backend.findFreeRight] at h
        cases h
        exact ⟨rfl, fun j' hj' => absurd hj' (Nat.not_lt_zero j')⟩
      | SetSlot t sl v =>
        simp only [Backend.findFreeRight] at h
        cases hfind : Backend.findFreeRight rest with
        | none => rw [hfind] at h; cases h
        | some j0 =>
          rw [hfind] at h
          cases h
          obtain ⟨hget, hfirst⟩ := ih.1 j0 hfind
          refine ⟨hget, ?_⟩
          intro j' hj'
          cases j' with
          | zero => intro hc; simp only [List.get?] at hc; cases hc
          | succ j' => exact hfirst j' (Nat.lt_of_succ_lt_succ hj')
      | PushEquation l r d =>
        simp only [Backend.findFreeRight] at h
        cases hfind : Backend.findFreeRight rest with
        | none => rw [hfind] at h; cases h
        | some j0 =>
          rw [hfind] at h
          cases h
          obtain ⟨hget, hfirst⟩ := ih.1 j0 hfind
          refine ⟨hget, ?_⟩
          intro j' hj'
          cases j' with
          | zero => intro hc; simp only [List.get?] at hc; cases hc
          | succ j' => exact hfirst j' (Nat.lt_of_succ_lt_succ hj')
      | FreeLeft =>
        simp only [Backend.findFreeRight] at h
        cases hfind : Backend.findFreeRight rest with
        | none => rw [hfind] at h; cases h
        | some j0 =>
          rw [hfind] at h
          cases h
          obtain ⟨hget, hfirst⟩ := ih.1 j0 hfind
          refine ⟨hget, ?_⟩
          intro j' hj'
          cases j' with
          | zero => intro hc; simp only [List.get?] at hc; cases hc
          | succ j' => exact hfirst j' (Nat.lt_of_succ_lt_succ hj')
    · intro h y hy
      cases x with
      | FreeRight => simp [Backend.findFreeRight] at h
      | SetSlot t sl v =>
        simp only [Backend.findFreeRight] at h
        cases hfind : Backend.findFreeRight rest with
        | some j0 => rw [hfind] at h; cases h
        | none =>
          simp only [List.mem_cons] at hy
          cases hy with
          | inl hy => subst hy; intro hEq; cases hEq
          | inr hy => exact ih.2 hfind y hy
      | PushEquation l r d =>
        simp only [Backend.findFreeRight] at h
        cases hfind : Backend.findFreeRight rest with
        | some j0 => rw [hfind] at h; cases h
        | none =>
          simp only [List.mem_cons] at hy
          cases hy with
          | inl hy => subst hy; intro hEq; cases hEq
          | inr hy => exact ih.2 hfind y hy
      | FreeLeft =>
        simp only [Backend.findFreeRight] at h
        cases hfind : Backend.findFreeRight rest with
        | some j0 => rw [hfind] at h; cases h
        | none =>
          simp only [List.mem_cons] at hy
          cases hy with
          | inl hy => subst hy; intro hEq; cases hEq
          | inr hy => exact ih.2 hfind y hy

/-- Helper: pointwise characterisation of the optimiser's rule loop. -/
theorem optimizeRules_spec (rmap : List (Backend.AgentId × Backend.AgentId × Nat)) :
    ∀ (l l' : List Backend.Rule), Backend.optimizeRules rmap l = some l' →
      l'.length = l.length ∧
      ∀ k r, l.get? k = some r →
        ∃ r', Backend.optimize_new_free r rmap = some r' ∧
          l'.get? k = some r' := by
  intro l
  induction l with
  | nil =>
    intro l' h
    cases h
    exact ⟨rfl, fun k r hk => by simp at hk⟩
  | cons r rs ih =>
    intro l' h
    simp only [Backend.optimizeRules, Option.bind_eq_bind, Option.bind] at h
    cases hr : Backend.optimize_new_free r rmap with
    | none => rw [hr] at h; cases h
    | some r' =>
      rw [hr] at h
      cases hrs : Backend.optimizeRules rmap rs with
      | none => rw [hrs] at h; cases h
      | some rs' =>
        rw [hrs] at h
        cases h
        obtain ⟨hlen, hpt⟩ := ih rs' hrs
        refine ⟨by simp [hlen], ?_⟩
        intro k x hk
        cases k with
        | zero =>
          simp only [List.get?] at hk
          cases hk
          exact ⟨r', hr, rfl⟩
        | succ k => exact hpt k x hk

/-- C8: the optimiser applies exactly one peephole per rule and side — for
each rule it resolves the endpoint pair from `rule_map` at the rule's index,
then, if the initializers contain an `Agent` allocation of the left endpoint
id and the instructions contain a `FreeLeft`, deletes the first such
initializer and the first `FreeLeft` and appends `ReuseLeft` with that
initializer's register index at the end of the initializers (symmetrically
`FreeRight`/`ReuseRight` for the right endpoint); a rule missing either half
of a pattern keeps that side unchanged, and everything else in the program
is untouched. -/
theorem c8_optimizer_single_peephole :
    (∀ (p p' : Backend.Program), Backend.optimize p = some p' →
      (p'.agents = p.agents ∧ p'.rule_map = p.rule_map ∧
        p'.functions = p.functions ∧ p'.function_meta = p.function_meta ∧
        p'.entry_point = p.entry_point ∧
        p'.rules.length = p.rules.length ∧
        ∀ k r, p.rules.get? k = some r →
          ∃ left_id right_id i,
            p.rule_map.get? r.index = some (left_id, right_id, i) ∧
            p'.rules.get? k =
              some (Backend.optimizeRightPass right_id
                (Backend.optimizeLeftPass left_id r)))) ∧
    (∀ (left_id : Backend.AgentId) (rule : Backend.Rule),
      Backend.findAgentInit left_id rule.initializers = none →
      Backend.optimizeLeftPass left_id rule = rule) ∧
    (∀ (left_id : Backend.AgentId) (rule : Backend.Rule),
      Backend.findFreeLeft rule.instructions = none →
      Backend.optimizeLeftPass left_id rule = rule) ∧
    (∀ (left_id : Backend.AgentId) (rule : Backend.Rule) (i n j : Nat),
      Backend.findAgentInit left_id rule.initializers = some (i, n) →
      Backend.findFreeLeft rule.instructions = some j →
      Backend.optimizeLeftPass left_id rule =
        { rule with
            initializers :=
              rule.initializers.eraseIdx i ++ [.ReuseLeft n],
            instructions := rule.instructions.eraseIdx j }) ∧
    (∀ (right_id : Backend.AgentId) (rule : Backend.Rule),
      Backend.findAgentInit right_id rule.initializers = none →
      Backend.optimizeRightPass right_id rule = rule) ∧
    (∀ (right_id : Backend.AgentId) (rule : Backend.Rule),
      Backend.findFreeRight rule.instructions = none →
      Backend.optimizeRightPass right_id rule = rule) ∧
    (∀ (right_id : Backend.AgentId) (rule : Backend.Rule) (i n j : Nat),
      Backend.findAgentInit right_id rule.initializers = some (i, n) →
      Backend.findFreeRight rule.instructions = some j →
      Backend.optimizeRightPass right_id rule =
        { rule with
            initializers :=
              rule.initializers.eraseIdx i ++ [.ReuseRight n],
            instructions := rule.instructions.eraseIdx j }) ∧
    (∀ (id : Backend.AgentId) (inits : List Backend.RuleInitializer) (i n : Nat),
      Backend.findAgentInit id inits = some (i, n) →
      (inits.get? i = some (.Agent n id) ∧
        ∀ j, j < i → ∀ n', inits.get? j ≠ some (.Agent n' id))) ∧
    (∀ (id : Backend.AgentId) (inits : List Backend.RuleInitializer),
      Backend.findAgentInit id inits = none →
      ∀ x ∈ inits, ∀ n, x ≠ .Agent n id) ∧
    (∀ (instrs : List Backend.RuleInstruction) (j : Nat),
      Backend.findFreeLeft instrs = some j →
      instrs.get? j = some .FreeLeft ∧
        ∀ j', j' < j → instrs.get? j' ≠ some .FreeLeft) ∧
    (∀ (instrs : List Backend.RuleInstruction) (j : Nat),
      Backend.findFreeRight instrs = some j →
      instrs.get? j = some .FreeRight ∧
        ∀ j', j' < j → instrs.get? j' ≠ some .FreeRight) := by
  refine ⟨?_, ?_, ?_, ?_, ?_, ?_, ?_, ?_, ?_, ?_, ?_⟩
  · intro p p' h
    simp only [Backend.optimize, Option.map_eq_map] at h
    cases hrules : Backend.optimizeRules p.rule_map p.rules with
    | none => rw [hrules] at h; cases h
    | some rs' =>
      rw [hrules] at h
      simp only [Option.map] at h
      cases h
      obtain ⟨hlen, hpt⟩ := optimizeRules_spec p.rule_map p.rules rs' hrules
      refine ⟨rfl, rfl, rfl, rfl, rfl, hlen, ?_⟩
      intro k r hk
      obtain ⟨r', hr', hk'⟩ := hpt k r hk
      simp only [Backend.optimize_new_free] at hr'
      cases hmap : p.rule_map.get? r.index with
      | none => rw [hmap] at hr'; cases hr'
      | some e =>
        rw [hmap] at hr'
        cases hr'
        refine ⟨e.1, e.2.1, e.2.2, ?_, hk'⟩
        rfl
  · intro left_id rule h
    simp [Backend.optimizeLeftPass, h]
  · intro left_id rule h
    cases hfind : Backend.findAgentInit left_id rule.initializers with
    | none => simp [Backend.optimizeLeftPass, hfind]
    | some e => simp [Backend.optimizeLeftPass, hfind, h]
  · intro left_id rule i n j h1 h2
    simp [Backend.optimizeLeftPass, h1, h2]
  · intro right_id rule h
    simp [Backend.optimizeRightPass, h]
  · intro right_id rule h
    cases hfind : Backend.findAgentInit right_id rule.initializers with
    | none => simp [Backend.optimizeRightPass, hfind]
    | some e => simp [Backend.optimizeRightPass, hfind, h]
  · intro right_id rule i n j h1 h2
    simp [Backend.optimizeRightPass, h1, h2]
  · intro id inits i n h
    exact findAgentInit_some_spec id inits i n h
  · intro id inits h
    exact findAgentInit_none_spec id inits h
  · intro instrs j h
    exact (findFreeLeft_spec instrs).1 j h
  · intro instrs j h
    exact (findFreeRight_spec instrs).1 j h

/-- C8, witness: the left peephole fires on a one-allocation rule, and a
rule with no matching allocation for the right endpoint is unchanged. -/
theorem c8_optimizer_single_peephole_witness :
    Backend.optimizeLeftPass 5
        ⟨0, "d", [.Agent 0 5], [.FreeLeft, .FreeRight]⟩ =
      { (⟨0, "d", [.Agent 0 5], [.FreeLeft, .FreeRight]⟩ : Backend.Rule) with
          initializers :=
            ([Backend.RuleInitializer.Agent 0 5].eraseIdx 0) ++ [.ReuseLeft 0],
          instructions :=
            ([Backend.RuleInstruction.FreeLeft, .FreeRight].eraseIdx 0) } ∧
    Backend.optimizeRightPass 7
        ⟨0, "d", [.Agent 0 5], [.FreeLeft, .FreeRight]⟩ =
      ⟨0, "d", [.Agent 0 5], [.FreeLeft, .FreeRight]⟩ :=
  ⟨c8_optimizer_single_peephole.2.2.2.1 5
      ⟨0, "d", [.Agent 0 5], [.FreeLeft, .FreeRight]⟩ 0 0 0 rfl rfl,
   c8_optimizer_single_peephole.2.2.2.2.1 7
      ⟨0, "d", [.Agent 0 5], [.FreeLeft, .FreeRight]⟩ rfl⟩

/-- Helper: resolving a name never changes the recorded head arguments. -/
theorem add_or_get_name_arguments (b : Backend.RuleBuilder) (name : String) :
    ((b.add_or_get_name name).2).arguments = b.arguments := by
  cases b with
  | mk arguments names terms instructions =>
    simp only [Backend.RuleBuilder.add_or_get_name]
    cases (arguments.enum.find? (fun e => e.2.1 = name)).map (fun e => e.1) with
    | some id => rfl
    | none =>
      cases (names.enum.find? (fun e => e.2 = name)).map (fun e => e.1) with
      | some id => rfl
      | none => rfl

/-- Helper: allocating an agent register never changes the recorded head
arguments. -/
theorem add_term_arguments (b : Backend.RuleBuilder)
    (agent_id : Backend.AgentId) :
    ((b.add_term agent_id).2).arguments = b.arguments := by
  cases b with
  | mk arguments names terms instructions => rfl

mutual

/-- Helper: lowering a term never changes the recorded head arguments. -/
theorem ruleTerm_arguments :
    ∀ (t : Ast.Term) (global : List Backend.AgentMeta)
      (b : Backend.RuleBuilder)
      (out : Backend.Local × List Backend.AgentMeta × Backend.RuleBuilder),
      Backend.RuleBuilder.term global b t = .ok out →
      out.2.2.arguments = b.arguments
  | .name n, global, b, out, h => by
    simp only [Backend.RuleBuilder.term] at h
    cases h
    exact add_or_get_name_arguments b n.as_name
  | .agent a body, global, b, out, h => by
    simp only [Backend.RuleBuilder.term, Option.bind_eq_bind] at h
    cases hagent : Backend.add_or_get_agent global a body.length with
    | error e => rw [hagent] at h; cases h
    | ok ag =>
      rw [hagent] at h
      simp only [Bind.bind, Except.bind] at h
      cases hargs : Backend.RuleBuilder.term.goArgs
          (b.add_term ag.1).1 ag.2 (b.add_term ag.1).2 body 0 with
      | error e => rw [hargs] at h; cases h
      | ok gb =>
        rw [hargs] at h
        simp only [Bind.bind, Except.bind] at h
        cases h
        have h1 := ruleGoArgs_arguments body (b.add_term ag.1).1 ag.2
          (b.add_term ag.1).2 0 gb hargs
        rw [h1, add_term_arguments]

/-- Helper: lowering agent arguments never changes the recorded head
arguments. -/
theorem ruleGoArgs_arguments :
    ∀ (ts : List Ast.Term) (term_name : Backend.Local)
      (global : List Backend.AgentMeta) (b : Backend.RuleBuilder) (i : Nat)
      (out : List Backend.AgentMeta × Backend.RuleBuilder),
      Backend.RuleBuilder.term.goArgs term_name global b ts i = .ok out →
      out.2.arguments = b.arguments
  | [], term_name, global, b, i, out, h => by
    simp only [Backend.RuleBuilder.term.goArgs] at h
    cases h
    rfl
  | t :: ts, term_name, global, b, i, out, h => by
    simp only [Backend.RuleBuilder.term.goArgs, Option.bind_eq_bind] at h
    cases hterm : Backend.RuleBuilder.term global b t with
    | error e => rw [hterm] at h; cases h
    | ok lgb =>
      rw [hterm] at h
      simp only [Bind.bind, Except.bind] at h
      have h1 := ruleTerm_arguments t global b lgb hterm
      cases lgb with
      | mk sub_name gb =>
        cases gb with
        | mk g1 b1 =>
          cases b1 with
          | mk arguments names terms instructions =>
            have h2 := ruleGoArgs_arguments ts term_name g1
              ⟨arguments, names, terms,
                instructions ++ [.SetSlot term_name (i + 1) sub_name]⟩
              (i + 1) out h
            rw [h2]
            exact h1

end

/-- Helper: lowering an equation never changes the recorded head
arguments. -/
theorem ruleEquation_arguments (global : List Backend.AgentMeta)
    (b : Backend.RuleBuilder) (e : Ast.Equation)
    (out : List Backend.AgentMeta × Backend.RuleBuilder)
    (h : Backend.RuleBuilder.equation global b e = .ok out) :
    out.2.arguments = b.arguments := by
  unfold Backend.RuleBuilder.equation at h
  cases hterm : Backend.RuleBuilder.term global b e.left with
  | error err =>
    rw [hterm] at h
    simp only [Bind.bind, Except.bind] at h
    cases h
  | ok lgb =>
    obtain ⟨lname, g1, b1⟩ := lgb
    rw [hterm] at h
    simp only [Bind.bind, Except.bind] at h
    have h1 : b1.arguments = b.arguments :=
      ruleTerm_arguments e.left global b (lname, g1, b1) hterm
    cases hterm2 : Backend.RuleBuilder.term g1 b1 e.right with
    | error err =>
      rw [hterm2] at h
      cases h
    | ok rgb =>
      obtain ⟨rname, g2, b2⟩ := rgb
      rw [hterm2] at h
      have h2 : b2.arguments = b1.arguments :=
        ruleTerm_arguments e.right g1 b1 (rname, g2, b2) hterm2
      obtain ⟨arguments, names, terms, instructions⟩ := b2
      cases h
      simpa using h2.trans h1

/-- Helper: lowering a run of equations never changes the recorded head
arguments. -/
theorem ruleGoEqs_arguments :
    ∀ (eqs : List Ast.Equation) (global : List Backend.AgentMeta)
      (b : Backend.RuleBuilder)
      (out : List Backend.AgentMeta × Backend.RuleBuilder),
      Backend.RulesBuilder.rule.goEqs global b eqs = .ok out →
      out.2.arguments = b.arguments := by
  intro eqs
  induction eqs with
  | nil =>
    intro global b out h
    simp only [Backend.RulesBuilder.rule.goEqs] at h
    cases h
    rfl
  | cons e rest ih =>
    intro global b out h
    simp only [Backend.RulesBuilder.rule.goEqs, Bind.bind, Except.bind] at h
    cases heq : Backend.RuleBuilder.equation global b e with
    | error err => rw [heq] at h; cases h
    | ok gb =>
      rw [heq] at h
      have h1 := ruleEquation_arguments global b e gb heq
      have h2 := ih gb.1 gb.2 out h
      exact h2.trans h1

/-- Helper: `goSlots` appends exactly the slot seed and touches nothing
else. -/
theorem goSlots_spec :
    ∀ (ns : List Ast.Name) (side : Nat → Backend.ArgSlot) (i : Nat)
      (arguments : List (String × Backend.ArgSlot)) (names : List String)
      (terms : List Backend.AgentId)
      (instructions : List Backend.RuleInstruction),
      Backend.RulesBuilder.rule.goSlots ⟨arguments, names, terms, instructions⟩
          ns side i =
        ⟨arguments ++ slotSeed ns side i, names, terms, instructions⟩ := by
  intro ns
  induction ns with
  | nil =>
    intro side i arguments names terms instructions
    simp [Backend.RulesBuilder.rule.goSlots, slotSeed]
  | cons n rest ih =>
    intro side i arguments names terms instructions
    simp only [Backend.RulesBuilder.rule.goSlots, Backend.RuleBuilder.slot,
      slotSeed]
    rw [ih]
    simp

/-- Helper: enumeration from a base offset, mapped through a function of the
index only. -/
theorem enumFrom_map_fst {α β : Type} (g : Nat → β) :
    ∀ (l : List α) (base : Nat),
      (List.enumFrom base l).map (fun e => g e.1) =
        (List.range l.length).map (fun k => g (base + k)) := by
  intro l
  induction l with
  | nil => intro base; rfl
  | cons x rest ih =>
    intro base
    simp only [List.enumFrom, List.map, List.length_cons,
      List.range_succ_eq_map, ih (base + 1), List.map_map, List.cons.injEq,
      Nat.add_zero, true_and]
    apply List.map_congr_left
    intro k _
    simp only [Function.comp]
    congr 1 <;> omega

/-- Helper: the enumerated slot seed of the left head maps to the
`SlotFromLeft` imports with shifted indices. -/
theorem slotSeed_enum_left :
    ∀ (ns : List Ast.Name) (j base : Nat),
      (List.enumFrom base (slotSeed ns Backend.ArgSlot.Left j)).map
          (fun e =>
            match e.2.2 with
            | Backend.ArgSlot.Left slot =>
              Backend.RuleInitializer.SlotFromLeft e.1 slot
            | Backend.ArgSlot.Right slot =>
              Backend.RuleInitializer.SlotFromRight e.1 slot) =
        (List.range ns.length).map
          (fun k => Backend.RuleInitializer.SlotFromLeft (base + k) (j + k + 1)) := by
  intro ns
  induction ns with
  | nil => intro j base; rfl
  | cons n rest ih =>
    intro j base
    simp only [slotSeed, List.enumFrom, List.map, List.length_cons,
      List.range_succ_eq_map, ih (j + 1) (base + 1), List.map_map,
      List.cons.injEq, Nat.add_zero, true_and]
    apply List.map_congr_left
    intro k _
    simp only [Function.comp]
    congr 1 <;> omega

/-- Helper: the enumerated slot seed of the right head maps to the
`SlotFromRight` imports with shifted indices. -/
theorem slotSeed_enum_right :
    ∀ (ns : List Ast.Name) (j base : Nat),
      (List.enumFrom base (slotSeed ns Backend.ArgSlot.Right j)).map
          (fun e =>
            match e.2.2 with
            | Backend.ArgSlot.Left slot =>
              Backend.RuleInitializer.SlotFromLeft e.1 slot
            | Backend.ArgSlot.Right slot =>
              Backend.RuleInitializer.SlotFromRight e.1 slot) =
        (List.range ns.length).map
          (fun k => Backend.RuleInitializer.SlotFromRight (base + k) (j + k + 1)) := by
  intro ns
  induction ns with
  | nil => intro j base; rfl
  | cons n rest ih =>
    intro j base
    simp only [slotSeed, List.enumFrom, List.map, List.length_cons,
      List.range_succ_eq_map, ih (j + 1) (base + 1), List.map_map,
      List.cons.injEq, Nat.add_zero, true_and]
    apply List.map_congr_left
    intro k _
    simp only [Function.comp]
    congr 1 <;> omega

/-- Helper: enumeration splits over append. -/
theorem enumFrom_append_own {α : Type} :
    ∀ (l1 l2 : List α) (base : Nat),
      List.enumFrom base (l1 ++ l2) =
        List.enumFrom base l1 ++ List.enumFrom (base + l1.length) l2 := by
  intro l1
  induction l1 with
  | nil => intro l2 base; simp [List.enumFrom]
  | cons x rest ih =>
    intro l2 base
    simp only [List.cons_append, List.enumFrom, ih l2 (base + 1),
      List.length_cons, List.cons.injEq, true_and]
    have harith : base + 1 + rest.length = base + (rest.length + 1) := by omega
    rw [← harith]
    exact ih l2 (base + 1)

/-- Helper: the slot seed has one entry per head name. -/
theorem slotSeed_length (side : Nat → Backend.ArgSlot) :
    ∀ (ns : List Ast.Name) (i : Nat), (slotSeed ns side i).length = ns.length := by
  intro ns
  induction ns with
  | nil => intro i; rfl
  | cons n rest ih => intro i; simp [slotSeed, ih]

/-- Helper: enumerating any list and keeping only the index. -/
theorem enum_map_fst {α β : Type} (g : Nat → β) (l : List α) :
    l.enum.map (fun e => g e.1) = (List.range l.length).map g := by
  rw [List.enum, enumFrom_map_fst]
  apply List.map_congr_left
  intro k _
  congr 1
  omega

/-- Helper: the built argument record maps exactly to the slot-import
prefix. -/
theorem args_enum_to_slotInits (ls rs : List Ast.Name) :
    ((slotSeed ls Backend.ArgSlot.Left 0 ++
        slotSeed rs Backend.ArgSlot.Right 0).enum.map
      (fun e =>
        match e.2.2 with
        | Backend.ArgSlot.Left slot =>
          Backend.RuleInitializer.SlotFromLeft e.1 slot
        | Backend.ArgSlot.Right slot =>
          Backend.RuleInitializer.SlotFromRight e.1 slot)) =
      slotInits ls rs := by
  rw [List.enum, enumFrom_append_own, List.map_append, slotSeed_enum_left,
    slotSeed_enum_right, slotSeed_length]
  unfold slotInits
  congr 1
  · apply List.map_congr_left
    intro k _
    congr 1 <;> omega
  · apply List.map_congr_left
    intro k _
    congr 1
    · omega
    · omega

/-- Helper: full characterisation of one `RulesBuilder::rule` step, given
the interning results of the two heads: the dispatch entry is the
canonically ordered id pair with the fresh rule index, and the appended rule
has the grouped initializer list (slot imports of the canonical heads, then
fresh names, then fresh agents) and instructions terminated by `FreeLeft`
then `FreeRight`. -/
theorem rule_step_spec
    (st : Backend.RulesBuilder) (global : List Backend.AgentMeta)
    (rule : Ast.Rule) (g' : List Backend.AgentMeta)
    (st' : Backend.RulesBuilder) (a1 a2 : Backend.AgentId)
    (g1 g2 : List Backend.AgentMeta)
    (h1 : Backend.add_or_get_agent global rule.term_pair.left.agent
        rule.term_pair.left.body.length = .ok (a1, g1))
    (h2 : Backend.add_or_get_agent g1 rule.term_pair.right.agent
        rule.term_pair.right.body.length = .ok (a2, g2))
    (hstep : Backend.RulesBuilder.rule st global rule = .ok (g', st')) :
    st'.rule_map = st.rule_map ++
        [if a1 ≤ a2 then (a1, a2, st.rules.length)
         else (a2, a1, st.rules.length)] ∧
    ∃ (d : String) (n : Nat) (ts : List Backend.AgentId)
      (pre : List Backend.RuleInstruction), st'.rules = st.rules ++
        [⟨st.rules.length, d,
          slotInits
            (if a1 ≤ a2 then rule.term_pair.left.body
             else rule.term_pair.right.body)
            (if a1 ≤ a2 then rule.term_pair.right.body
             else rule.term_pair.left.body) ++
          (List.range n).map (fun k => Backend.RuleInitializer.Name k) ++
          ts.enum.map (fun e => Backend.RuleInitializer.Agent e.1 e.2),
          pre ++ [.FreeLeft, .FreeRight]⟩] := by
  obtain ⟨rules0, rmap0⟩ := st
  by_cases hc : a1 ≤ a2
  · simp only [Backend.RulesBuilder.rule, Bind.bind, Except.bind, h1, h2,
      if_pos hc, Backend.RuleBuilder.empty] at hstep
    rw [goSlots_spec, goSlots_spec] at hstep
    simp only [List.nil_append] at hstep
    cases heqs : Backend.RulesBuilder.rule.goEqs g2
        ⟨slotSeed rule.term_pair.left.body Backend.ArgSlot.Left 0 ++
          slotSeed rule.term_pair.right.body Backend.ArgSlot.Right 0,
          [], [], []⟩ rule.equations with
    | error err => rw [heqs] at hstep; cases hstep
    | ok gb =>
      obtain ⟨g3, bf⟩ := gb
      rw [heqs] at hstep
      have hargs := ruleGoEqs_arguments rule.equations g2 _ (g3, bf) heqs
      obtain ⟨argsf, namesf, termsf, instsf⟩ := bf
      simp only [Backend.RuleBuilder.build] at hstep
      cases hstep
      simp only at hargs
      refine ⟨by simp [if_pos hc], rule.toStr, namesf.length, termsf, instsf,
        ?_⟩
      simp only [if_pos hc, List.append_cancel_left_eq, List.cons.injEq,
        Backend.Rule.mk.injEq, and_true, true_and]
      rw [hargs, args_enum_to_slotInits, enum_map_fst]
  · simp only [Backend.RulesBuilder.rule, Bind.bind, Except.bind, h1, h2,
      if_neg hc, Backend.RuleBuilder.empty] at hstep
    rw [goSlots_spec, goSlots_spec] at hstep
    simp only [List.nil_append] at hstep
    cases heqs : Backend.RulesBuilder.rule.goEqs g2
        ⟨slotSeed rule.term_pair.right.body Backend.ArgSlot.Left 0 ++
          slotSeed rule.term_pair.left.body Backend.ArgSlot.Right 0,
          [], [], []⟩ rule.equations with
    | error err => rw [heqs] at hstep; cases hstep
    | ok gb =>
      obtain ⟨g3, bf⟩ := gb
      rw [heqs] at hstep
      have hargs := ruleGoEqs_arguments rule.equations g2 _ (g3, bf) heqs
      obtain ⟨argsf, namesf, termsf, instsf⟩ := bf
      simp only [Backend.RuleBuilder.build] at hstep
      cases hstep
      simp only at hargs
      refine ⟨by simp [if_neg hc], rule.toStr, namesf.length, termsf, instsf,
        ?_⟩
      simp only [if_neg hc, List.append_cancel_left_eq, List.cons.injEq,
        Backend.Rule.mk.injEq, and_true, true_and]
      rw [hargs, args_enum_to_slotInits, enum_map_fst]

/-- Helper: unconditional shape of one `RulesBuilder::rule` step: one
ordered dispatch entry and one rule are appended, both carrying the fresh
index. -/
theorem rule_step_exists (st : Backend.RulesBuilder)
    (global : List Backend.AgentMeta) (rule : Ast.Rule)
    (g' : List Backend.AgentMeta) (st' : Backend.RulesBuilder)
    (hstep : Backend.RulesBuilder.rule st global rule = .ok (g', st')) :
    ∃ l r, l ≤ r ∧
      st'.rule_map = st.rule_map ++ [(l, r, st.rules.length)] ∧
      ∃ ru, st'.rules = st.rules ++ [ru] ∧ ru.index = st.rules.length := by
  cases ha1 : Backend.add_or_get_agent global rule.term_pair.left.agent
      rule.term_pair.left.body.length with
  | error e =>
    obtain ⟨rules0, rmap0⟩ := st
    simp only [Backend.RulesBuilder.rule, Bind.bind, Except.bind, ha1]
      at hstep
    cases hstep
  | ok p1 =>
    obtain ⟨a1, g1⟩ := p1
    cases ha2 : Backend.add_or_get_agent g1 rule.term_pair.right.agent
        rule.term_pair.right.body.length with
    | error e =>
      obtain ⟨rules0, rmap0⟩ := st
      simp only [Backend.RulesBuilder.rule, Bind.bind, Except.bind, ha1, ha2]
        at hstep
      cases hstep
    | ok p2 =>
      obtain ⟨a2, g2⟩ := p2
      obtain ⟨hmap, d, n, ts, pre, hrules⟩ :=
        rule_step_spec st global rule g' st' a1 a2 g1 g2 ha1 ha2 hstep
      by_cases hc : a1 ≤ a2
      · refine ⟨a1, a2, hc, ?_, ⟨_, hrules, rfl⟩⟩
        rw [hmap, if_pos hc]
      · refine ⟨a2, a1, le_of_not_le hc, ?_, ⟨_, hrules, rfl⟩⟩
        rw [hmap, if_neg hc]

/-- Helper: one `RulesBuilder::rule` step preserves the builder invariant. -/
theorem rulesInv_step (st : Backend.RulesBuilder)
    (global : List Backend.AgentMeta) (rule : Ast.Rule)
    (g' : List Backend.AgentMeta) (st' : Backend.RulesBuilder)
    (hstep : Backend.RulesBuilder.rule st global rule = .ok (g', st'))
    (hinv : RulesInv st) : RulesInv st' := by
  obtain ⟨l, r, hlr, hmap, ru, hrules, hidx⟩ :=
    rule_step_exists st global rule g' st' hstep
  obtain ⟨hlen, hent⟩ := hinv
  constructor
  · rw [hmap, hrules]
    simp [hlen]
  · intro k e he
    rw [hmap] at he
    rcases Nat.lt_trichotomy k st.rule_map.length with hk | hk | hk
    · rw [List.get?_append hk] at he
      obtain ⟨h1, h2, ru0, hru0, hidx0⟩ := hent k e he
      refine ⟨h1, h2, ru0, ?_, hidx0⟩
      rw [hrules, List.get?_append (by omega)]
      exact hru0
    · subst hk
      rw [List.get?_concat_length] at he
      cases he
      refine ⟨hlr, hlen, ru, ?_, ?_⟩
      · rw [hrules, ← hlen, List.get?_concat_length]
      · rw [hidx, hlen]
    · exfalso
      have hnone : (st.rule_map ++ [(l, r, st.rules.length)]).get? k = none := by
        apply List.get?_eq_none.mpr
        simp only [List.length_append, List.length_singleton]
        omega
      rw [hnone] at he
      cases he

/-- Helper: the rules loop preserves the builder invariant. -/
theorem buildRules_inv (rs : List Ast.Rule) :
    ∀ (global : List Backend.AgentMeta) (st : Backend.RulesBuilder)
      (g' : List Backend.AgentMeta) (st' : Backend.RulesBuilder),
      Backend.buildRules global st rs = .ok (g', st') →
      RulesInv st → RulesInv st' := by
  induction rs with
  | nil =>
    intro global st g' st' h hinv
    simp only [Backend.buildRules] at h
    cases h
    exact hinv
  | cons r rest ih =>
    intro global st g' st' h hinv
    simp only [Backend.buildRules, Bind.bind, Except.bind] at h
    cases hr : Backend.RulesBuilder.rule st global r with
    | error e => rw [hr] at h; cases h
    | ok p =>
      obtain ⟨g1, st1⟩ := p
      rw [hr] at h
      exact ih g1 st1 g' st' h (rulesInv_step st global r g1 st1 hr hinv)

/-- C5: when the source left head's agent id exceeds the right head's, the
heads are swapped — the dispatch entry is the reversed ordered pair and the
slot imports for the source left head's argument names become
`SlotFromRight` entries (first conjunct); and after building any rule list
from the empty state, every `rule_map` entry `(l, r, i)` satisfies `l ≤ r`
and `i` equals both its own position and the `index` of the rule stored at
that position in the rules vector (second conjunct). -/
theorem c5_canonical_head_order :
    (∀ (st : Backend.RulesBuilder) (global : List Backend.AgentMeta)
      (rule : Ast.Rule) (g' : List Backend.AgentMeta)
      (st' : Backend.RulesBuilder) (a1 a2 : Backend.AgentId)
      (g1 g2 : List Backend.AgentMeta),
      Backend.add_or_get_agent global rule.term_pair.left.agent
          rule.term_pair.left.body.length = .ok (a1, g1) →
      Backend.add_or_get_agent g1 rule.term_pair.right.agent
          rule.term_pair.right.body.length = .ok (a2, g2) →
      Backend.RulesBuilder.rule st global rule = .ok (g', st') →
      a2 < a1 →
      st'.rule_map = st.rule_map ++ [(a2, a1, st.rules.length)] ∧
      ∃ (d : String) (n : Nat) (ts : List Backend.AgentId)
        (pre : List Backend.RuleInstruction),
        st'.rules = st.rules ++ [⟨st.rules.length, d,
          slotInits rule.term_pair.right.body rule.term_pair.left.body ++
          (List.range n).map (fun k => Backend.RuleInitializer.Name k) ++
          ts.enum.map (fun e => Backend.RuleInitializer.Agent e.1 e.2),
          pre ++ [.FreeLeft, .FreeRight]⟩]) ∧
    (∀ (rs : List Ast.Rule) (global g' : List Backend.AgentMeta)
      (st' : Backend.RulesBuilder),
      Backend.buildRules global ⟨[], []⟩ rs = .ok (g', st') →
      ∀ k e, st'.rule_map.get? k = some e →
        e.1 ≤ e.2.1 ∧ e.2.2 = k ∧
        ∃ ru, st'.rules.get? k = some ru ∧ ru.index = k) := by
  constructor
  · intro st global rule g' st' a1 a2 g1 g2 h1 h2 hstep hgt
    have hc : ¬ (a1 ≤ a2) := not_le.mpr hgt
    obtain ⟨hmap, d, n, ts, pre, hrules⟩ :=
      rule_step_spec st global rule g' st' a1 a2 g1 g2 h1 h2 hstep
    rw [if_neg hc] at hmap
    simp only [if_neg hc] at hrules
    exact ⟨hmap, d, n, ts, pre, hrules⟩
  · intro rs global g' st' hb k e he
    have hinv0 : RulesInv ⟨[], []⟩ := by
      refine ⟨rfl, ?_⟩
      intro k e he
      simp at he
    exact (buildRules_inv rs global ⟨[], []⟩ g' st' hb hinv0).2 k e he

/-- Witness for C5 at `swapRule`: the heads intern to ids 2 and 1, the
dispatch entry comes out reversed as `(1, 2, 0)`, and the single stored
entry satisfies the index invariant. -/
theorem c5_canonical_head_order_witness :
    (swapSt'.rule_map = [(1, 2, 0)] ∧
      ∃ (d : String) (n : Nat) (ts : List Backend.AgentId)
        (pre : List Backend.RuleInstruction),
        swapSt'.rules = [⟨0, d,
          slotInits swapRule.term_pair.right.body
            swapRule.term_pair.left.body ++
          (List.range n).map (fun k => Backend.RuleInitializer.Name k) ++
          ts.enum.map (fun e => Backend.RuleInitializer.Agent e.1 e.2),
          pre ++ [.FreeLeft, .FreeRight]⟩]) ∧
    (1 ≤ 2 ∧ 0 = 0 ∧
      ∃ ru, swapSt'.rules.get? 0 = some ru ∧ ru.index = 0) :=
  ⟨c5_canonical_head_order.1 ⟨[], []⟩ swapGlobal swapRule swapG' swapSt'
      2 1 swapG' swapG' rfl rfl rfl (by decide),
    c5_canonical_head_order.2 [swapRule] swapGlobal swapG' swapSt'
      rfl 0 (1, 2, 0) rfl⟩

/-- C10: every rule lowered by the builder emits its initializers in fixed
groups — the slot imports of the two (canonically ordered) heads, one per
head-argument name in head order with slot index = argument position + 1
(`slotInits`), then all fresh `Name` initializers, then all fresh `Agent`
initializers — and its instruction list ends with `FreeLeft` immediately
followed by `FreeRight`. -/
theorem c10_initializer_grouping
    (st : Backend.RulesBuilder) (global : List Backend.AgentMeta)
    (rule : Ast.Rule) (g' : List Backend.AgentMeta)
    (st' : Backend.RulesBuilder)
    (hstep : Backend.RulesBuilder.rule st global rule = .ok (g', st')) :
    ∃ (tl tr : Ast.RuleTerm),
      ((tl = rule.term_pair.left ∧ tr = rule.term_pair.right) ∨
        (tl = rule.term_pair.right ∧ tr = rule.term_pair.left)) ∧
      ∃ (d : String) (n : Nat) (ts : List Backend.AgentId)
        (pre : List Backend.RuleInstruction),
        st'.rules = st.rules ++ [⟨st.rules.length, d,
          slotInits tl.body tr.body ++
          (List.range n).map (fun k => Backend.RuleInitializer.Name k) ++
          ts.enum.map (fun e => Backend.RuleInitializer.Agent e.1 e.2),
          pre ++ [.FreeLeft, .FreeRight]⟩] := by
  cases ha1 : Backend.add_or_get_agent global rule.term_pair.left.agent
      rule.term_pair.left.body.length with
  | error e =>
    obtain ⟨rules0, rmap0⟩ := st
    simp only [Backend.RulesBuilder.rule, Bind.bind, Except.bind, ha1]
      at hstep
    cases hstep
  | ok p1 =>
    obtain ⟨a1, g1⟩ := p1
    cases ha2 : Backend.add_or_get_agent g1 rule.term_pair.right.agent
        rule.term_pair.right.body.length with
    | error e =>
      obtain ⟨rules0, rmap0⟩ := st
      simp only [Backend.RulesBuilder.rule, Bind.bind, Except.bind, ha1, ha2]
        at hstep
      cases hstep
    | ok p2 =>
      obtain ⟨a2, g2⟩ := p2
      obtain ⟨hmap, d, n, ts, pre, hrules⟩ :=
        rule_step_spec st global rule g' st' a1 a2 g1 g2 ha1 ha2 hstep
      by_cases hc : a1 ≤ a2
      · simp only [if_pos hc] at hrules
        exact ⟨rule.term_pair.left, rule.term_pair.right, .inl ⟨rfl, rfl⟩,
          d, n, ts, pre, hrules⟩
      · simp only [if_neg hc] at hrules
        exact ⟨rule.term_pair.right, rule.term_pair.left, .inr ⟨rfl, rfl⟩,
          d, n, ts, pre, hrules⟩

/-- Witness for C10 at `swapRule`: the lowered rule's initializer list is
the grouped form over the swapped heads and its instructions end with the
two frees. -/
theorem c10_initializer_grouping_witness :
    ∃ (tl tr : Ast.RuleTerm),
      ((tl = swapRule.term_pair.left ∧ tr = swapRule.term_pair.right) ∨
        (tl = swapRule.term_pair.right ∧ tr = swapRule.term_pair.left)) ∧
      ∃ (d : String) (n : Nat) (ts : List Backend.AgentId)
        (pre : List Backend.RuleInstruction),
        swapSt'.rules = [⟨0, d,
          slotInits tl.body tr.body ++
          (List.range n).map (fun k => Backend.RuleInitializer.Name k) ++
          ts.enum.map (fun e => Backend.RuleInitializer.Agent e.1 e.2),
          pre ++ [.FreeLeft, .FreeRight]⟩] :=
  c10_initializer_grouping ⟨[], []⟩ swapGlobal swapRule swapG' swapSt' rfl

/-- Helper: one `count_names` bump raises exactly the bumped key's count. -/
theorem bumpName_tableCount (m : List (String × (Int × Ast.Name)))
    (nm : Ast.Name) (s : String) :
    tableCount (Check.bumpName m nm) s =
      if nm.as_name = s then tableCount m s + 1 else tableCount m s := by
  by_cases hs : nm.as_name = s
  · subst hs
    rw [if_pos rfl]
    cases hl : Check.lookupA m nm.as_name with
    | none =>
      simp [Check.bumpName, hl, tableCount, lookupA_insertA_self]
    | some p =>
      obtain ⟨c, n0⟩ := p
      simp [Check.bumpName, hl, tableCount, lookupA_insertA_self]
  · rw [if_neg hs]
    have hne : s ≠ nm.as_name := fun hh => hs hh.symm
    cases hl : Check.lookupA m nm.as_name with
    | none =>
      simp only [Check.bumpName, hl, tableCount]
      rw [lookupA_insertA_ne m nm.as_name s _ hne]
    | some p =>
      obtain ⟨c, n0⟩ := p
      simp only [Check.bumpName, hl, tableCount]
      rw [lookupA_insertA_ne m nm.as_name s _ hne]

/-- Helper: folding `count_names` bumps over a name run adds exactly the
occurrence counts. -/
theorem foldl_bump_tableCount (l : List Ast.Name) :
    ∀ (m : List (String × (Int × Ast.Name))) (s : String),
      tableCount (l.foldl Check.bumpName m) s =
        tableCount m s + (specCount l s : Int) := by
  induction l with
  | nil =>
    intro m s
    simp [specCount]
  | cons nm rest ih =>
    intro m s
    simp only [List.foldl_cons, specCount]
    rw [ih, bumpName_tableCount]
    by_cases hs : nm.as_name = s
    · rw [if_pos hs, if_pos hs]
      push_cast
      omega
    · rw [if_neg hs, if_neg hs]
      push_cast
      omega

/-- Helper: a member of a name run has positive occurrence count. -/
theorem specCount_pos (l : List Ast.Name) (n : Ast.Name) (h : n ∈ l) :
    1 ≤ specCount l n.as_name := by
  induction l with
  | nil => cases h
  | cons nm rest ih =>
    rcases List.mem_cons.mp h with h' | h'
    · subst h'
      simp only [specCount]
      rw [if_true]
      omega
    · have := ih h'
      simp only [specCount]
      omega

/-- Helper: insertion leaves the key run unchanged when the key is present,
else appends it. -/
theorem insertA_keys {α : Type} (m : List (String × α)) (k : String)
    (v : α) :
    (Check.insertA m k v).map Prod.fst =
      if k ∈ m.map Prod.fst then m.map Prod.fst
      else m.map Prod.fst ++ [k] := by
  induction m with
  | nil => simp [Check.insertA]
  | cons e rest ih =>
    by_cases he : e.1 = k
    · simp only [Check.insertA, if_pos he, List.map_cons]
      rw [if_pos (by simp [he.symm])]
      rw [he]
    · simp only [Check.insertA, if_neg he, List.map_cons, ih]
      by_cases hk : k ∈ List.map Prod.fst rest
      · rw [if_pos hk, if_pos (List.mem_cons_of_mem _ hk)]
      · have hnot : ¬ k ∈ e.1 :: List.map Prod.fst rest := by
          intro hmem
          rcases List.mem_cons.mp hmem with h' | h'
          · exact he h'.symm
          · exact hk h'
        rw [if_neg hk, if_neg hnot, List.cons_append]

/-- Helper: insertion preserves distinctness of the keys. -/
theorem insertA_keys_nodup {α : Type} (m : List (String × α)) (k : String)
    (v : α) (h : (m.map Prod.fst).Nodup) :
    ((Check.insertA m k v).map Prod.fst).Nodup := by
  rw [insertA_keys]
  by_cases hk : k ∈ m.map Prod.fst
  · rwa [if_pos hk]
  · rw [if_neg hk]
    simp [List.nodup_append, h, hk]

/-- Helper: a counting bump preserves distinctness of the keys. -/
theorem bumpName_keys_nodup (m : List (String × (Int × Ast.Name)))
    (nm : Ast.Name) (h : (m.map Prod.fst).Nodup) :
    ((Check.bumpName m nm).map Prod.fst).Nodup := by
  cases hl : Check.lookupA m nm.as_name with
  | none =>
    simp only [Check.bumpName, hl]
    exact insertA_keys_nodup m nm.as_name _ h
  | some p =>
    obtain ⟨c, n0⟩ := p
    simp only [Check.bumpName, hl]
    exact insertA_keys_nodup m nm.as_name _ h

/-- Helper: folding counting bumps preserves distinctness of the keys. -/
theorem foldl_bump_keys_nodup (l : List Ast.Name) :
    ∀ (m : List (String × (Int × Ast.Name))), (m.map Prod.fst).Nodup →
      ((l.foldl Check.bumpName m).map Prod.fst).Nodup := by
  induction l with
  | nil => intro m h; exact h
  | cons nm rest ih =>
    intro m h
    exact ih (Check.bumpName m nm) (bumpName_keys_nodup m nm h)

/-- Helper: a successful lookup produces a member of the table. -/
theorem lookupA_mem {α : Type} (m : List (String × α)) (s : String) (v : α)
    (h : Check.lookupA m s = some v) : (s, v) ∈ m := by
  induction m with
  | nil => simp [Check.lookupA] at h
  | cons e rest ih =>
    obtain ⟨e1, e2⟩ := e
    by_cases he : e1 = s
    · subst he
      simp [Check.lookupA, List.find?] at h
      subst h
      exact List.mem_cons_self _ _
    · simp only [Check.lookupA, List.find?, decide_eq_false he] at h
      exact List.mem_cons_of_mem _ (ih h)

/-- Helper: under distinct keys, membership determines the lookup. -/
theorem mem_lookupA {α : Type} (m : List (String × α)) (s : String) (v : α)
    (hnd : (m.map Prod.fst).Nodup) (h : (s, v) ∈ m) :
    Check.lookupA m s = some v := by
  induction m with
  | nil => cases h
  | cons e rest ih =>
    obtain ⟨e1, e2⟩ := e
    simp only [List.map_cons, List.nodup_cons] at hnd
    obtain ⟨hne, hnd'⟩ := hnd
    rcases List.mem_cons.mp h with h' | h'
    · injection h' with h1 h2
      subst h1
      subst h2
      simp [Check.lookupA, List.find?]
    · have he : e1 ≠ s := by
        intro hh
        subst hh
        exact hne (List.mem_map.mpr ⟨(e1, v), h', rfl⟩)
      simp only [Check.lookupA, List.find?, decide_eq_false he]
      exact ih hnd' h'

/-- Helper: a name recorded by the counting fold either was already in the
table or is an occurrence from the folded run carrying its own key. -/
theorem lookup_foldl_origin (l : List Ast.Name) :
    ∀ (m : List (String × (Int × Ast.Name))) (s : String) (c : Int)
      (n : Ast.Name),
      Check.lookupA (l.foldl Check.bumpName m) s = some (c, n) →
      Check.lookupA m s = some (c, n) ∨ (n ∈ l ∧ n.as_name = s) := by
  induction l with
  | nil =>
    intro m s c n h
    exact Or.inl h
  | cons nm rest ih =>
    intro m s c n h
    rcases ih (Check.bumpName m nm) s c n h with h' | h'
    · by_cases hs : nm.as_name = s
      · subst hs
        cases hl : Check.lookupA m nm.as_name with
        | none =>
          simp only [Check.bumpName, hl] at h'
          rw [lookupA_insertA_self] at h'
          cases h'
          exact Or.inr ⟨List.mem_cons_self _ _, rfl⟩
        | some p =>
          obtain ⟨c0, n0⟩ := p
          simp only [Check.bumpName, hl] at h'
          rw [lookupA_insertA_self] at h'
          cases h'
          exact Or.inr ⟨List.mem_cons_self _ _, rfl⟩
      · have hne : s ≠ nm.as_name := fun hh => hs hh.symm
        cases hl : Check.lookupA m nm.as_name with
        | none =>
          simp only [Check.bumpName, hl] at h'
          rw [lookupA_insertA_ne m nm.as_name s _ hne] at h'
          exact Or.inl h'
        | some p =>
          obtain ⟨c0, n0⟩ := p
          simp only [Check.bumpName, hl] at h'
          rw [lookupA_insertA_ne m nm.as_name s _ hne] at h'
          exact Or.inl h'
    · exact Or.inr ⟨List.mem_cons_of_mem _ h'.1, h'.2⟩

/-- Helper: a passing count scan means every recorded count is two. -/
theorem scanCounts_ok_mem :
    ∀ (m : List (String × (Int × Ast.Name))) (s : String) (c : Int)
      (n : Ast.Name),
      Check.scanCounts m = .ok () → (s, (c, n)) ∈ m → c = 2
  | [], s, c, n, _, hmem => by cases hmem
  | (s0, (c0, n0)) :: rest, s, c, n, hok, hmem => by
    simp only [Check.scanCounts] at hok
    by_cases hc : c0 ≠ 2
    · rw [if_pos hc] at hok
      cases hok
    · rw [if_neg hc] at hok
      rcases List.mem_cons.mp hmem with h' | h'
      · injection h' with h1 h2
        injection h2 with h2 h3
        subst h2
        exact Decidable.not_not.mp hc
      · exact scanCounts_ok_mem rest s c n hok h'

/-- Helper: a failing count scan reports a recorded entry whose count is not
two, as a `VariableCountError` carrying that entry's name and count. -/
theorem scanCounts_error_mem :
    ∀ (m : List (String × (Int × Ast.Name))) (err : Check.TypeError),
      Check.scanCounts m = .error err →
      ∃ s c n, err = .VariableCountError n c ∧ c ≠ 2 ∧ (s, (c, n)) ∈ m
  | [], err, h => by cases h
  | (s0, (c0, n0)) :: rest, err, h => by
    simp only [Check.scanCounts] at h
    by_cases hc : c0 ≠ 2
    · rw [if_pos hc] at h
      cases h
      exact ⟨s0, c0, n0, rfl, hc, List.mem_cons_self _ _⟩
    · rw [if_neg hc] at h
      obtain ⟨s, c, n, h1, h2, h3⟩ := scanCounts_error_mem rest err h
      exact ⟨s, c, n, h1, h2, List.mem_cons_of_mem _ h3⟩

mutual

/-- Helper: `count_names` is the fold of single bumps over the term's name
occurrences. -/
theorem count_names_spec :
    ∀ (t : Ast.Term) (m : List (String × (Int × Ast.Name))),
      Check.count_names t m = (specTermNames t).foldl Check.bumpName m
  | .name n, m => by
    simp [Check.count_names, specTermNames]
  | .agent a body, m => by
    simp only [Check.count_names, specTermNames]
    exact countList_spec body m

/-- Helper: `count_names.countList` is the fold of single bumps over the
terms' name occurrences. -/
theorem countList_spec :
    ∀ (ts : List Ast.Term) (m : List (String × (Int × Ast.Name))),
      Check.count_names.countList ts m =
        (specTermNames.goList ts).foldl Check.bumpName m
  | [], m => by
    simp [Check.count_names.countList, specTermNames.goList]
  | t :: ts, m => by
    simp only [Check.count_names.countList, specTermNames.goList,
      List.foldl_append]
    rw [count_names_spec t m]
    exact countList_spec ts _

end

/-- Helper: the equation loop of the variable-count checks is the fold of
single bumps over the equations' name occurrences. -/
theorem eqFold_spec (eqs : List Ast.Equation) :
    ∀ (m : List (String × (Int × Ast.Name))),
      eqs.foldl (fun m e => Check.count_names e.right
        (Check.count_names e.left m)) m =
        (specEqNames eqs).foldl Check.bumpName m := by
  induction eqs with
  | nil =>
    intro m
    simp [specEqNames]
  | cons e es ih =>
    intro m
    simp only [List.foldl_cons, specEqNames, List.foldl_append]
    rw [count_names_spec e.left m, count_names_spec e.right]
    exact ih _

/-- Helper: the interface loop of `check_net_variables` is the fold of
single bumps over the interfaces' name occurrences. -/
theorem ifFold_spec (ts : List Ast.Term) :
    ∀ (m : List (String × (Int × Ast.Name))),
      ts.foldl (fun m t => Check.count_names t m) m =
        (specIfNames ts).foldl Check.bumpName m := by
  induction ts with
  | nil =>
    intro m
    simp [specIfNames]
  | cons t ts ih =>
    intro m
    simp only [List.foldl_cons, specIfNames, List.foldl_append]
    rw [count_names_spec t m]
    exact ih _

/-- Helper: `check_rule_variables` scans the bump fold over the rule's name
multiset. -/
theorem check_rule_variables_eq (rule : Ast.Rule) :
    Check.check_rule_variables rule =
      Check.scanCounts ((specRuleNames rule).foldl Check.bumpName []) := by
  simp only [Check.check_rule_variables, specRuleNames, List.foldl_append]
  rw [eqFold_spec]

/-- Helper: `check_net_variables` scans the bump fold over the net's name
multiset. -/
theorem check_net_variables_eq (net : Ast.Net) :
    Check.check_net_variables net =
      Check.scanCounts ((specNetNames net).foldl Check.bumpName []) := by
  simp only [Check.check_net_variables, specNetNames, List.foldl_append]
  rw [eqFold_spec, ifFold_spec]

/-- Helper: a passing scan over the counting fold of a name run means every
member occurs exactly twice. -/
theorem scan_fold_ok (l : List Ast.Name)
    (hok : Check.scanCounts (l.foldl Check.bumpName []) = .ok ()) :
    ∀ n ∈ l, specCount l n.as_name = 2 := by
  intro n hn
  have hpos := specCount_pos l n hn
  have hcount := foldl_bump_tableCount l [] n.as_name
  cases hl : Check.lookupA (l.foldl Check.bumpName []) n.as_name with
  | none =>
    exfalso
    have hz : tableCount (l.foldl Check.bumpName []) n.as_name = 0 := by
      simp [tableCount, hl]
    rw [hz] at hcount
    have h0 : tableCount [] n.as_name = 0 := rfl
    rw [h0] at hcount
    omega
  | some p =>
    obtain ⟨c, n'⟩ := p
    have hc : tableCount (l.foldl Check.bumpName []) n.as_name = c := by
      simp [tableCount, hl]
    have hmem := lookupA_mem _ _ _ hl
    have h2 := scanCounts_ok_mem _ _ _ _ hok hmem
    rw [hc, h2] at hcount
    have h0 : tableCount [] n.as_name = 0 := rfl
    rw [h0] at hcount
    omega

/-- Helper: a failing scan over the counting fold of a name run reports a
`VariableCountError` naming an occurrence from the run with its true count,
which is not two. -/
theorem scan_fold_error (l : List Ast.Name) (err : Check.TypeError)
    (herr : Check.scanCounts (l.foldl Check.bumpName []) = .error err) :
    ∃ n c, err = .VariableCountError n c ∧ c ≠ 2 ∧ n ∈ l ∧
      c = (specCount l n.as_name : Int) := by
  obtain ⟨s, c, n, h1, h2, h3⟩ := scanCounts_error_mem _ _ herr
  have hnd : ((l.foldl Check.bumpName []).map Prod.fst).Nodup :=
    foldl_bump_keys_nodup l [] (by simp)
  have hl := mem_lookupA _ _ _ hnd h3
  rcases lookup_foldl_origin l [] s c n hl with h' | h'
  · simp [Check.lookupA] at h'
  · obtain ⟨hmem, hs⟩ := h'
    have hcount := foldl_bump_tableCount l [] s
    have hc : tableCount (l.foldl Check.bumpName []) s = c := by
      simp [tableCount, hl]
    refine ⟨n, c, h1, h2, hmem, ?_⟩
    rw [hs, ← hc, hcount]
    have h0 : tableCount [] s = 0 := rfl
    rw [h0]
    omega

/-- C6: `check_rule_variables` passes only when every name of the rule's
multiset — both heads' argument lists plus all (nested) occurrences in the
body equations — occurs exactly twice, and fails with a
`VariableCountError` naming one of those occurrences together with its true
count, which differs from two; `check_net_variables` behaves the same over
the net's equations and interfaces. -/
theorem c6_variable_count :
    (∀ rule : Ast.Rule,
      (Check.check_rule_variables rule = .ok () →
        ∀ n ∈ specRuleNames rule,
          specCount (specRuleNames rule) n.as_name = 2) ∧
      (∀ err, Check.check_rule_variables rule = .error err →
        ∃ n c, err = .VariableCountError n c ∧ c ≠ 2 ∧
          n ∈ specRuleNames rule ∧
          c = (specCount (specRuleNames rule) n.as_name : Int))) ∧
    (∀ net : Ast.Net,
      (Check.check_net_variables net = .ok () →
        ∀ n ∈ specNetNames net,
          specCount (specNetNames net) n.as_name = 2) ∧
      (∀ err, Check.check_net_variables net = .error err →
        ∃ n c, err = .VariableCountError n c ∧ c ≠ 2 ∧
          n ∈ specNetNames net ∧
          c = (specCount (specNetNames net) n.as_name : Int))) := by
  constructor
  · intro rule
    constructor
    · intro hok
      rw [check_rule_variables_eq] at hok
      exact scan_fold_ok _ hok
    · intro err herr
      rw [check_rule_variables_eq] at herr
      exact scan_fold_error _ err herr
  · intro net
    constructor
    · intro hok
      rw [check_net_variables_eq] at hok
      exact scan_fold_ok _ hok
    · intro err herr
      rw [check_net_variables_eq] at herr
      exact scan_fold_error _ err herr

/-- Witness for C6: the balanced rule `ruleW` passes the count check with
every name at count two, and the unbalanced net `netW` fails with
`VariableCountError` carrying `#y` and its true count one. -/
theorem c6_variable_count_witness :
    (∀ n ∈ specRuleNames ruleW,
      specCount (specRuleNames ruleW) n.as_name = 2) ∧
    (∃ n c,
      Check.TypeError.VariableCountError (.In "y") 1 =
        .VariableCountError n c ∧ c ≠ 2 ∧ n ∈ specNetNames netW ∧
      c = (specCount (specNetNames netW) n.as_name : Int)) :=
  ⟨(c6_variable_count.1 ruleW).1 rfl,
    (c6_variable_count.2 netW).2
      (Check.TypeError.VariableCountError (.In "y") 1) rfl⟩
